import Mathlib

/-!
Verification of the HardLinkDedup deduplication engine.

The Rust sources are shallowly embedded: pure control flow becomes Lean
functions, filesystem and allocator effects become explicit oracles, and
the coordinator's hash maps become association lists with lookup-based
semantics.
-/

namespace HardLinkDedup

abbrev Filesize := Nat
abbrev FileId := Nat
abbrev StorageUid := Nat
abbrev HashDigest := Nat

/-- Association-list lookup, first match wins (models `HashMap::get`). -/
def lookupA {α β : Type} [DecidableEq α] (k : α) : List (α × β) → Option β
  | [] => none
  | (k', v) :: rest => if k' = k then some v else lookupA k rest

/-- Association-list insert-or-replace (models `HashMap::insert` /
`Entry::or_default` mutation; replaces the binding when the key is present). -/
def upsertA {α β : Type} [DecidableEq α] (k : α) (v : β) : List (α × β) → List (α × β)
  | [] => [(k, v)]
  | (k', v') :: rest => if k' = k then (k, v) :: rest else (k', v') :: upsertA k v rest

/-! ### Hasher: buffer reservation (`storage.rs`, `calculate_file_hash`) -/

/-- Allocation retry loop of `calculate_file_hash`: try to reserve `size`
bytes; on failure halve while the size exceeds 512, otherwise surface the
allocation error (`none`).  The allocator is an oracle `alloc` telling
whether a reservation of a given size succeeds. -/
def reserveLoop (alloc : Nat → Bool) (size : Nat) : Option Nat :=
  if alloc size then some size
  else if 512 < size then reserveLoop alloc (size / 2)
  else none
termination_by size
decreasing_by exact Nat.div_lt_self (by omega) (by omega)

/-- The sizes the reservation loop attempts to allocate, in order. -/
def reserveAttempts (alloc : Nat → Bool) (size : Nat) : List Nat :=
  if alloc size then [size]
  else if 512 < size then size :: reserveAttempts alloc (size / 2)
  else [size]
termination_by size
decreasing_by exact Nat.div_lt_self (by omega) (by omega)

/-- Initial buffer size: `min(args.buffer_size * 1024, expected_size)`. -/
def initBufferSize (bufferSizeKiB expected : Nat) : Nat :=
  min (bufferSizeKiB * 1024) expected

/-! ### Hasher: read loop (`storage.rs`, `calculate_file_hash`) -/

/-- The chunks delivered by the read loop: each `read` fills at most the
buffer (`b` bytes) from the remaining content and the loop stops at the
first zero-byte read. -/
def readChunks (b : Nat) (content : List Nat) : List (List Nat) :=
  if content.isEmpty then []
  else if b = 0 then []
  else content.take b :: readChunks b (content.drop b)
termination_by content.length
decreasing_by
  rename_i h1 h2
  have hlen : content ≠ [] := by
    intro hc; subst hc; simp at h1
  have : 0 < content.length := List.length_pos.mpr hlen
  simp only [List.length_drop]
  omega

/-- All bytes consumed by the read loop, in order. -/
def bytesRead (b : Nat) (content : List Nat) : List Nat :=
  (readChunks b content).foldr (fun x acc => x ++ acc) []

inductive HashErr where
  | oomErr
  | brokenPipe
  deriving DecidableEq

/-- `calculate_file_hash` from `storage.rs`: cap the buffer at the expected
size, run the fallible reservation loop, stream the file through the hash
(abstracted as `hashFn` applied to the bytes consumed), and fail with a
broken-pipe error when the number of bytes read differs from `expected`. -/
def calculate_file_hash (hashFn : List Nat → HashDigest) (alloc : Nat → Bool)
    (bufferSizeKiB : Nat) (content : List Nat) (expected : Nat) :
    Except HashErr HashDigest :=
  match reserveLoop alloc (initBufferSize bufferSizeKiB expected) with
  | none => .error .oomErr
  | some b =>
    let consumed := bytesRead b content
    if consumed.length = expected then .ok (hashFn consumed)
    else .error .brokenPipe

/-! ### File records and scanner (`main.rs`, `scan_dir`) -/

/-- `FileStorageData` from `storage.rs`: path, byte length, storage volume
identifier and file extent identifier. -/
structure FileRec where
  path : String
  size : Filesize
  storage_uid : StorageUid
  file_id : FileId
  deriving DecidableEq

/-- `ScanDirResult` from `main.rs`. -/
inductive ScanItem where
  | Dir (path : String)
  | File (f : FileRec)
  deriving DecidableEq

/-- Kind of a directory entry as reported by `symlink_metadata`. -/
inductive EntKind where
  | symlink
  | dir
  | file
  | other
  deriving DecidableEq

/-- One directory entry as the scanner observes it: its name, its
link-metadata kind, the data `FileStorageData::new` would report, and
oracles for the two fallible metadata reads (`symlink_metadata` and
`FileStorageData::new`). -/
structure DirEnt where
  name : String
  kind : EntKind
  size : Filesize
  storage_uid : StorageUid
  file_id : FileId
  metaErr : Option String
  statErr : Option String
  deriving DecidableEq

/-- The per-entry body of the `scan_dir` loop: symlinks are skipped,
directories are emitted as further scan work, and regular files pass the
optional full-match pattern gate (the first regex match must span the whole
name) before the metadata read and the size gate (`size != 0 &&
size >= min_file_size * 1024`). `find?` is the black-box regex search
returning the span of the first match, when a pattern is configured. -/
def scanEntry (find? : Option (String → Option (Nat × Nat))) (minKiB : Nat)
    (e : DirEnt) : Except String (Option ScanItem) :=
  match e.metaErr with
  | some err => .error err
  | none =>
    match e.kind with
    | .symlink => .ok none
    | .dir => .ok (some (.Dir e.name))
    | .file =>
      let keep :=
        match find? with
        | none => true
        | some find =>
          match find e.name with
          | some (s, en) => decide (s = 0) && decide (en = e.name.length)
          | none => false
      if keep then
        match e.statErr with
        | some err => .error err
        | none =>
          if e.size ≠ 0 ∧ e.size ≥ minKiB * 1024 then
            .ok (some (.File ⟨e.name, e.size, e.storage_uid, e.file_id⟩))
          else .ok none
      else .ok none
    | .other => .ok none

/-- The `scan_dir` loop over the entry stream: each `next_entry` step either
fails (aborting the whole scan, discarding results gathered so far) or
yields an entry processed by `scanEntry`. -/
def scanEntries (find? : Option (String → Option (Nat × Nat))) (minKiB : Nat) :
    List (Except String DirEnt) → Except String (List ScanItem)
  | [] => .ok []
  | .error e :: _ => .error e
  | .ok ent :: rest =>
    match scanEntry find? minKiB ent with
    | .error e => .error e
    | .ok none => scanEntries find? minKiB rest
    | .ok (some item) =>
      match scanEntries find? minKiB rest with
      | .error e => .error e
      | .ok items => .ok (item :: items)

/-- `scan_dir`: `read_dir` may fail up front (oracle `rd`); otherwise the
entry stream is processed. -/
def scan_dir (find? : Option (String → Option (Nat × Nat))) (minKiB : Nat)
    (rd : Except String (List (Except String DirEnt))) :
    Except String (List ScanItem) :=
  match rd with
  | .error e => .error e
  | .ok entries => scanEntries find? minKiB entries

/-- `scan_dir_with_context`: demote a scan error to an empty result when
`ignore_scan_errors` is set, otherwise propagate it. -/
def scan_dir_with_context (find? : Option (String → Option (Nat × Nat)))
    (minKiB : Nat) (rd : Except String (List (Except String DirEnt)))
    (ignore_scan_errors : Bool) : Except String (List ScanItem) :=
  match scan_dir find? minKiB rd, ignore_scan_errors with
  | r, false => r
  | .ok r, true => .ok r
  | .error _, true => .ok []

/-! ### Link-swap executor (`main.rs`, `merge_with_hard_link`) -/

/-- Filesystem actions the link-swap executor can perform. -/
inductive FsAct where
  | hardLink (original staging : String)
  | readMeta (p : String)
  | clearReadonly (p : String)
  | rename (src dst : String)
  | removeFile (p : String)
  | setReadonly (p : String)
  deriving DecidableEq

/-- Outcomes of the fallible filesystem calls inside one
`merge_with_hard_link` invocation: `none` means success, `some e` means the
call failed with error `e`; the metadata reads also report the read-only
bit on success. -/
structure FsOracle where
  hardLinkErr : Option String
  redundantMeta : Except String Bool
  clearReadonlyErr : Option String
  renameErr : Option String
  removeErr : Option String
  originalMeta : Except String Bool
  setReadonlyErr : Option String

/-- The arguments `merge_with_hard_link` consults. -/
structure MergeArgs where
  dry_run : Bool
  not_readonly : Bool
  temporary_extension : String
  deriving DecidableEq

/-- The staging path: the redundant path's file name with the temporary
extension appended. -/
def stagingPath (redundant ext : String) : String := redundant ++ "." ++ ext

/-- Stage 1 of `merge_with_hard_link`: create the hard link at the staging
path (skipped in dry-run mode). -/
def mergePhaseLink (a : MergeArgs) (o : FsOracle) (original staging : String) :
    List FsAct × Option String :=
  if a.dry_run then ([], none)
  else ([.hardLink original staging], o.hardLinkErr)

/-- Stage 2 of `merge_with_hard_link`: read the redundant path's
permissions, clear its read-only bit when set, then rename the staging path
over it; on rename failure delete the staging path and surface the rename
error (unless the deletion itself fails first). Skipped in dry-run mode. -/
def mergePhaseSwap (a : MergeArgs) (o : FsOracle) (staging redundant : String) :
    List FsAct × Option String :=
  if a.dry_run then ([], none)
  else
    match o.redundantMeta with
    | .error e => ([.readMeta redundant], some e)
    | .ok ro =>
      let pre := [FsAct.readMeta redundant]
      if ro then
        match o.clearReadonlyErr with
        | some e => (pre ++ [.clearReadonly redundant], some e)
        | none =>
          match o.renameErr with
          | none => (pre ++ [.clearReadonly redundant, .rename staging redundant], none)
          | some e =>
            (pre ++ [.clearReadonly redundant, .rename staging redundant,
                     .removeFile staging],
             match o.removeErr with
             | some e2 => some e2
             | none => some e)
      else
        match o.renameErr with
        | none => (pre ++ [.rename staging redundant], none)
        | some e =>
          (pre ++ [.rename staging redundant, .removeFile staging],
           match o.removeErr with
           | some e2 => some e2
           | none => some e)

/-- Stage 3 of `merge_with_hard_link`: unless `not_readonly`, read the
original's permissions and set it read-only when it is not already (in
dry-run mode only the metadata read happens). -/
def mergePhaseReadonly (a : MergeArgs) (o : FsOracle) (original : String) :
    List FsAct × Option String :=
  if a.not_readonly then ([], none)
  else
    match o.originalMeta with
    | .error e => ([.readMeta original], some e)
    | .ok ro2 =>
      if a.dry_run then ([.readMeta original], none)
      else if ro2 then ([.readMeta original], none)
      else ([.readMeta original, .setReadonly original], o.setReadonlyErr)

/-- `merge_with_hard_link` from `main.rs`, as the list of filesystem
actions performed (in order) paired with the surfaced error, if any. -/
def merge_with_hard_link (a : MergeArgs) (o : FsOracle)
    (original redundant : String) : List FsAct × Option String :=
  let staging := stagingPath redundant a.temporary_extension
  let s1 := mergePhaseLink a o original staging
  match s1.2 with
  | some e => (s1.1, some e)
  | none =>
    let s2 := mergePhaseSwap a o staging redundant
    match s2.2 with
    | some e => (s1.1 ++ s2.1, some e)
    | none =>
      let s3 := mergePhaseReadonly a o original
      (s1.1 ++ s2.1 ++ s3.1, s3.2)

/-! ### Dedup coordinator (`main.rs`, `main`) -/

/-- `FileEntry` from `main.rs`. `Files` is the pending state: the original
path plus the set of additional paths sharing the extent. -/
inductive FileEntry where
  | OriginalFile (path : String)
  | Files (path : String) (links : List String)
  | LinkTo (fid : FileId)
  deriving DecidableEq

/-- `StorageContent` from `main.rs`: the per-volume maps. -/
structure StorageContent where
  file_sizes : List (Filesize × Option FileId)
  hashes : List ((Filesize × HashDigest) × FileId)
  files : List (FileId × FileEntry)
  deriving DecidableEq

def emptyStorage : StorageContent := ⟨[], [], []⟩

/-- A spawned hash task: `NewHashReceived` carries the storage uid, the
file id, and the file size; the path is what gets hashed. -/
structure HashTask where
  storage_uid : StorageUid
  file_id : FileId
  size : Filesize
  path : String
  deriving DecidableEq

/-- `HashSet::insert` on the path set, modelled as append-if-absent. -/
def insertIfAbsent (x : String) (l : List String) : List String :=
  if x ∈ l then l else l ++ [x]

/-- Result of the alias-chain walk in Event A's occupied branch. -/
inductive WalkRes where
  | noMerge (files : List (FileId × FileEntry))
  | doMerge (target : String)
  | bad (reason : String)
  deriving DecidableEq

/-- The chain-following loop of Event A (`main.rs` lines 247-277): starting
from the entry of the already-known file id, follow `LinkTo` pointers;
`make_link` is true exactly after at least one hop. An `OriginalFile` ends
the walk (issuing a link when a hop happened), a `Files` row absorbs the
fresh path when no hop happened, and the remaining cases are the
`unreachable` branches of the source, reported as `bad`. -/
def chainWalk (queryFid : FileId) (path : String)
    (files : List (FileId × FileEntry)) :
    Nat → FileId → FileEntry → WalkRes
  | 0, _, _ => .bad "out of fuel"
  | Nat.succ fuel, id, entry =>
    let make_link := id ≠ queryFid
    match entry with
    | .LinkTo fid =>
      if fid = queryFid then .bad "File links will never loop"
      else
        match lookupA fid files with
        | some e => chainWalk queryFid path files fuel fid e
        | none => .bad "Files will never point to invalid file ids"
    | .OriginalFile target =>
      if make_link then .doMerge target else .noMerge files
    | .Files p links =>
      if make_link then .bad "Tried to create link to non-original file"
      else .noMerge (upsertA id (.Files p (insertIfAbsent path links)) files)

/-- Outcome of processing one `ScanDirResult::File` record (Event A) on one
volume's maps: the updated maps, the hash tasks spawned (in spawn order),
the link-swaps issued, and a reached `unreachable`/`expect` failure if
any. -/
structure FileStepOut where
  content : StorageContent
  newTasks : List HashTask
  newMerges : List (String × String)
  fail : Option String

/-- Event A for a file record (`main.rs` lines 243-334).  An occupied
file-entry row triggers the chain walk; a vacant row is inserted as a
pending `Files` row and the size bucket decides what to hash: a vacant
bucket records this extent as the sole representative, a bucket naming a
prior sole extent queues hashing for both and becomes the `None` sentinel,
and a bucket already holding the sentinel queues hashing only for the new
extent. -/
def processFileRec (r : FileRec) (sc : StorageContent) : FileStepOut :=
  match lookupA r.file_id sc.files with
  | some entry =>
    match chainWalk r.file_id r.path sc.files (sc.files.length + 1) r.file_id entry with
    | .noMerge files2 => ⟨{ sc with files := files2 }, [], [], none⟩
    | .doMerge target => ⟨sc, [], [(target, r.path)], none⟩
    | .bad m => ⟨sc, [], [], some m⟩
  | none =>
    let files1 := upsertA r.file_id (.Files r.path []) sc.files
    match lookupA r.size sc.file_sizes with
    | none =>
      ⟨{ sc with files := files1,
                 file_sizes := upsertA r.size (some r.file_id) sc.file_sizes },
       [], [], none⟩
    | some none =>
      ⟨{ sc with files := files1 },
       [⟨r.storage_uid, r.file_id, r.size, r.path⟩], [], none⟩
    | some (some first_id) =>
      match lookupA first_id files1 with
      | none => ⟨{ sc with files := files1 }, [], [], some "This file id has to exist"⟩
      | some (.Files first_path _) =>
        ⟨{ sc with files := files1,
                   file_sizes := upsertA r.size none sc.file_sizes },
         [⟨r.storage_uid, first_id, r.size, first_path⟩,
          ⟨r.storage_uid, r.file_id, r.size, r.path⟩], [], none⟩
      | some _ =>
        ⟨{ sc with files := files1,
                   file_sizes := upsertA r.size none sc.file_sizes },
         [⟨r.storage_uid, r.file_id, r.size, r.path⟩], [], none⟩

/-- Event B for a completed hash with digest (`main.rs` lines 338-367):
returns the updated maps, the wasted-space increment, the link-swaps
issued, and a reached `unreachable`/`expect` failure if any.  A vacant
hash bucket records this extent as the representative (its row becomes
`OriginalFile`); an occupied bucket turns the row into `LinkTo` the
representative, adds the size to the wasted-space counter once, and issues
one link-swap from the representative path to each path of the row
(the stored alias paths plus the row's own original path). -/
def processHashRec (fid : FileId) (size : Filesize) (dig : HashDigest)
    (sc : StorageContent) :
    StorageContent × Nat × List (String × String) × Option String :=
  match lookupA (size, dig) sc.hashes with
  | none =>
    match lookupA fid sc.files with
    | some (.Files original _) =>
      ({ sc with hashes := upsertA (size, dig) fid sc.hashes,
                 files := upsertA fid (.OriginalFile original) sc.files },
       0, [], none)
    | _ => (sc, 0, [], some "Got vacant hash of invalid file id")
  | some original_id =>
    match lookupA fid sc.files with
    | some (.Files new_file new_links) =>
      let files2 := upsertA fid (.LinkTo original_id) sc.files
      match lookupA original_id files2 with
      | some (.OriginalFile original_file) =>
        ({ sc with files := files2 }, size,
         (insertIfAbsent new_file new_links).map (fun p => (original_file, p)),
         none)
      | some _ => (sc, 0, [], some "Hash targets are never converted to links")
      | none => (sc, 0, [], some "Only known file IDs are stored as hash targets")
    | some _ => (sc, 0, [], some "Only files are hashed, and only once")
    | none => (sc, 0, [], some "Only known file IDs are hashed")

/-- The coordinator's whole state: the per-volume maps, the wasted-space
counter, the not-yet-processed file records, the spawned but not-yet-
completed hash tasks, the link-swaps issued so far, and whether an
`unreachable`/`expect` branch was reached. -/
structure RunState where
  known : List (StorageUid × StorageContent)
  wasted : Nat
  pendingFiles : List FileRec
  pendingHashes : List HashTask
  merges : List (String × String)
  failed : Option String
  deriving DecidableEq

/-- The maps of one volume, defaulting to empty (`entry(..).or_default()`). -/
def scOf (s : RunState) (u : StorageUid) : StorageContent :=
  (lookupA u s.known).getD emptyStorage

/-- A scheduler choice: process the i-th pending file record, or complete
the i-th pending hash task. -/
inductive Choice where
  | file (i : Nat)
  | hash (i : Nat)

/-- One step of the coordinator loop under digest oracle `d` (the digest a
completed hash reports for a given extent; `none` models a hash failure
demoted by `ignore_hash_errors`).  Out-of-range choices are no-ops, and a
failed state is frozen. -/
def step (d : StorageUid → FileId → Option HashDigest) (s : RunState)
    (c : Choice) : RunState :=
  if s.failed.isSome then s else
  match c with
  | .file i =>
    match s.pendingFiles[i]? with
    | none => s
    | some r =>
      let out := processFileRec r (scOf s r.storage_uid)
      { s with pendingFiles := s.pendingFiles.eraseIdx i,
               known := upsertA r.storage_uid out.content s.known,
               pendingHashes := s.pendingHashes ++ out.newTasks,
               merges := s.merges ++ out.newMerges,
               failed := out.fail }
  | .hash i =>
    match s.pendingHashes[i]? with
    | none => s
    | some t =>
      let rest := s.pendingHashes.eraseIdx i
      match d t.storage_uid t.file_id with
      | none => { s with pendingHashes := rest }
      | some dig =>
        match lookupA t.storage_uid s.known with
        | none => { s with pendingHashes := rest,
                           failed := some "Always set by this point" }
        | some sc =>
          let out := processHashRec t.file_id t.size dig sc
          { s with pendingHashes := rest,
                   known := upsertA t.storage_uid out.1 s.known,
                   wasted := s.wasted + out.2.1,
                   merges := s.merges ++ out.2.2.1,
                   failed := out.2.2.2 }

/-- The initial coordinator state for a batch of scanned file records. -/
def initState (input : List FileRec) : RunState :=
  ⟨[], 0, input, [], [], none⟩

/-- A whole run: the scheduler's choices applied in order. -/
def run (d : StorageUid → FileId → Option HashDigest) (input : List FileRec)
    (cs : List Choice) : RunState :=
  cs.foldl (step d) (initState input)

/-! ### Coordinator invariants -/

/-- The maps of one volume within a map table, defaulting to empty. -/
def scK (known : List (StorageUid × StorageContent)) (u : StorageUid) :
    StorageContent :=
  (lookupA u known).getD emptyStorage

/-- Every hash-bucket value names an extent whose row is `OriginalFile`. -/
def HashesOk (sc : StorageContent) : Prop :=
  ∀ sz dg f, lookupA (sz, dg) sc.hashes = some f →
    ∃ p, lookupA f sc.files = some (.OriginalFile p)

/-- Every `LinkTo` row points at a different key whose row is
`OriginalFile` (alias chains have length one). -/
def LinksOk (sc : StorageContent) : Prop :=
  ∀ f t, lookupA f sc.files = some (.LinkTo t) →
    t ≠ f ∧ ∃ p, lookupA t sc.files = some (.OriginalFile p)

/-- Every spawned-but-uncompleted hash task's extent has a pending `Files`
row on its volume. -/
def PendOk (known : List (StorageUid × StorageContent))
    (pend : List HashTask) : Prop :=
  ∀ t ∈ pend, ∃ p ls,
    lookupA t.file_id (scK known t.storage_uid).files = some (.Files p ls)

/-- Two hash tasks target different (volume, extent) pairs. -/
def taskKeyNe (a b : HashTask) : Prop :=
  ¬(a.storage_uid = b.storage_uid ∧ a.file_id = b.file_id)

/-- No two spawned hash tasks target the same (volume, extent): each extent
is hashed at most once. -/
def PendDistinct (l : List HashTask) : Prop := l.Pairwise taskKeyNe

/-- A size bucket naming a sole extent names one with a pending `Files`
row, not yet queued for hashing, and is the only bucket naming it. -/
def BucketsOk (known : List (StorageUid × StorageContent))
    (pend : List HashTask) (u : StorageUid) : Prop :=
  ∀ sz f, lookupA sz (scK known u).file_sizes = some (some f) →
    (∃ p ls, lookupA f (scK known u).files = some (.Files p ls))
    ∧ (∀ t ∈ pend, ¬(t.storage_uid = u ∧ t.file_id = f))
    ∧ (∀ sz2, lookupA sz2 (scK known u).file_sizes = some (some f) → sz2 = sz)

/-- The per-table invariant tying the volume maps to the spawned tasks. -/
def InvKP (known : List (StorageUid × StorageContent))
    (pend : List HashTask) : Prop :=
  (∀ u, HashesOk (scK known u))
  ∧ (∀ u, LinksOk (scK known u))
  ∧ PendOk known pend
  ∧ PendDistinct pend
  ∧ ∀ u, BucketsOk known pend u

/-- The coordinator's global invariant: no `unreachable`/`expect` branch
has been reached and all per-volume table invariants hold. -/
def Inv (s : RunState) : Prop :=
  s.failed = none ∧ InvKP s.known s.pendingHashes

/-- No row is an Alias (`LinkTo`) — the second-run invariant. -/
def NoLinks (known : List (StorageUid × StorageContent)) : Prop :=
  ∀ u f t, lookupA f (scK known u).files ≠ some (.LinkTo t)

/-- Size/digest bookkeeping for the second-run argument: every record and
task carries its extent's size, buckets map a size only to extents of that
size, and every hash-bucket entry records its extent's size and digest. -/
def DedupSizes (d : StorageUid → FileId → Option HashDigest)
    (sizeOf : StorageUid → FileId → Filesize)
    (known : List (StorageUid × StorageContent))
    (pendF : List FileRec) (pend : List HashTask) : Prop :=
  (∀ r ∈ pendF, r.size = sizeOf r.storage_uid r.file_id)
  ∧ (∀ t ∈ pend, t.size = sizeOf t.storage_uid t.file_id)
  ∧ (∀ u sz f, lookupA sz (scK known u).file_sizes = some (some f) →
      sz = sizeOf u f)
  ∧ (∀ u sz dg f, lookupA (sz, dg) (scK known u).hashes = some f →
      sz = sizeOf u f ∧ d u f = some dg)

/-- The extra facts maintained on a second-run input: no aliases, size
bookkeeping, zero wasted space and zero link-swaps. -/
def SecondRunExtra (d : StorageUid → FileId → Option HashDigest)
    (sizeOf : StorageUid → FileId → Filesize) (s : RunState) : Prop :=
  NoLinks s.known
  ∧ DedupSizes d sizeOf s.known s.pendingFiles s.pendingHashes
  ∧ s.wasted = 0 ∧ s.merges = []

/-- The second-run invariant: the global invariant plus no aliases, size
bookkeeping, zero wasted space and zero link-swaps. -/
def Inv2 (d : StorageUid → FileId → Option HashDigest)
    (sizeOf : StorageUid → FileId → Filesize) (s : RunState) : Prop :=
  Inv s ∧ SecondRunExtra d sizeOf s

/-! ### Association-list lemmas -/

theorem lookupA_upsertA_self {α β : Type} [DecidableEq α] (k : α) (v : β)
    (l : List (α × β)) : lookupA k (upsertA k v l) = some v := by
  induction l with
  | nil => simp [upsertA, lookupA]
  | cons hd tl ih =>
    obtain ⟨k', v'⟩ := hd
    by_cases h : k' = k
    · simp [upsertA, h, lookupA]
    · simp [upsertA, h, lookupA, ih]

theorem lookupA_upsertA_ne {α β : Type} [DecidableEq α] {k k' : α} (v : β)
    (l : List (α × β)) (h : k ≠ k') : lookupA k' (upsertA k v l) = lookupA k' l := by
  induction l with
  | nil => simp [upsertA, lookupA, h]
  | cons hd tl ih =>
    obtain ⟨k0, v0⟩ := hd
    by_cases h0 : k0 = k
    · subst h0
      simp [upsertA, lookupA, h]
    · simp only [upsertA, if_neg h0]
      by_cases h1 : k0 = k'
      · simp [lookupA, h1]
      · simp [lookupA, h1, ih]

/-- Case split for a lookup in an upserted list. -/
theorem lookupA_upsertA {α β : Type} [DecidableEq α] (k k' : α) (v : β)
    (l : List (α × β)) :
    lookupA k' (upsertA k v l) = if k = k' then some v else lookupA k' l := by
  by_cases h : k = k'
  · subst h; simp [lookupA_upsertA_self]
  · simp [h, lookupA_upsertA_ne v l h]

/-! ### Properties of the reservation loop -/

theorem reserveAttempts_head (alloc : Nat → Bool) (size : Nat) :
    (reserveAttempts alloc size).head? = some size := by
  rw [reserveAttempts]
  by_cases h : alloc size = true
  · simp [h]
  · by_cases h2 : 512 < size <;> simp [h, h2]

theorem reserveAttempts_chain (alloc : Nat → Bool) (size : Nat) :
    List.Chain' (fun x y => 512 < x ∧ y = x / 2) (reserveAttempts alloc size) := by
  induction size using Nat.strong_induction_on with
  | _ size ih =>
    rw [reserveAttempts]
    by_cases h : alloc size = true
    · simp [h]
    · by_cases h2 : 512 < size
      · rw [if_neg h, if_pos h2]
        rw [List.chain'_cons']
        refine ⟨?_, ih (size / 2) (Nat.div_lt_self (by omega) (by omega))⟩
        intro y hy
        rw [reserveAttempts_head] at hy
        simp only [Option.mem_def, Option.some.injEq] at hy
        exact ⟨h2, hy.symm⟩
      · simp [h, h2]

theorem reserveAttempts_all_ge (alloc : Nat → Bool) (t : Nat) (ht : 256 ≤ t) :
    ∀ a ∈ reserveAttempts alloc t, 256 ≤ a := by
  induction t using Nat.strong_induction_on with
  | _ t ih =>
    intro a ha
    rw [reserveAttempts] at ha
    by_cases h : alloc t = true
    · simp [h] at ha; omega
    · by_cases h2 : 512 < t
      · rw [if_neg h, if_pos h2] at ha
        rcases List.mem_cons.mp ha with rfl | ha
        · omega
        · exact ih (t / 2) (Nat.div_lt_self (by omega) (by omega)) (by omega) a ha
      · simp [h, h2] at ha; omega

theorem reserveAttempts_tail_ge (alloc : Nat → Bool) (size : Nat) :
    ∀ a ∈ (reserveAttempts alloc size).tail, 256 ≤ a := by
  rw [reserveAttempts]
  by_cases h : alloc size = true
  · simp [h]
  · by_cases h2 : 512 < size
    · rw [if_neg h, if_pos h2, List.tail_cons]
      exact reserveAttempts_all_ge alloc (size / 2) (by omega)
    · simp [h, h2]

theorem reserveLoop_none_allFail (alloc : Nat → Bool) (size : Nat)
    (hn : reserveLoop alloc size = none) :
    ∀ a ∈ reserveAttempts alloc size, alloc a = false := by
  induction size using Nat.strong_induction_on with
  | _ size ih =>
    intro a ha
    rw [reserveLoop] at hn
    rw [reserveAttempts] at ha
    by_cases h : alloc size = true
    · simp [h] at hn
    · by_cases h2 : 512 < size
      · rw [if_neg h, if_pos h2] at hn ha
        rcases List.mem_cons.mp ha with rfl | ha
        · simpa using h
        · exact ih (size / 2) (Nat.div_lt_self (by omega) (by omega)) hn a ha
      · rw [if_neg h, if_neg h2] at ha
        rcases List.mem_singleton.mp ha with rfl
        simpa using h

theorem reserveLoop_none_last (alloc : Nat → Bool) (size : Nat)
    (hn : reserveLoop alloc size = none) :
    ∃ l, (reserveAttempts alloc size).getLast? = some l ∧ l ≤ 512 ∧
      alloc l = false := by
  induction size using Nat.strong_induction_on with
  | _ size ih =>
    rw [reserveLoop] at hn
    rw [reserveAttempts]
    by_cases h : alloc size = true
    · simp [h] at hn
    · by_cases h2 : 512 < size
      · rw [if_neg h, if_pos h2] at hn ⊢
        obtain ⟨l, hl, hle, hf⟩ :=
          ih (size / 2) (Nat.div_lt_self (by omega) (by omega)) hn
        exact ⟨l, List.mem_getLast?_cons hl, hle, hf⟩
      · rw [if_neg h, if_neg h2] at hn ⊢
        exact ⟨size, rfl, by omega, by simpa using h⟩

/-! ### Claim C4 -/

/-- Claim C4 counterexample: with the default 2048 KiB buffer configuration
and a 1500-byte expected length, total allocation failure makes the loop
attempt a 375-byte reservation — smaller than 512 bytes — before surfacing
the out-of-memory error, contradicting the claim that no allocation smaller
than 512 bytes is ever attempted before the error. -/
theorem C4_counterexample :
    reserveAttempts (fun _ => false) (initBufferSize 2048 1500) = [1500, 750, 375]
    ∧ reserveLoop (fun _ => false) (initBufferSize 2048 1500) = none
    ∧ (375 : Nat) < 512 := by
  refine ⟨?_, ?_, by norm_num⟩
  · rw [initBufferSize]; norm_num
    rw [reserveAttempts]; norm_num
    rw [reserveAttempts]; norm_num
    rw [reserveAttempts]; norm_num
  · rw [initBufferSize]; norm_num
    rw [reserveLoop]; norm_num
    rw [reserveLoop]; norm_num
    rw [reserveLoop]; norm_num

/-- Claim C4 (amended): in `calculate_file_hash` the initial read-buffer
size is capped at the expected file length; on allocation failure the
buffer size halves repeatedly while it exceeds 512 bytes, so every
attempted size after the first is at least 256 bytes; the out-of-memory
error is surfaced exactly when every attempt failed, and then the last
attempted size is at most 512 bytes. -/
theorem C4_buffer_allocation (alloc : Nat → Bool) (bufferSizeKiB expected : Nat) :
    initBufferSize bufferSizeKiB expected ≤ expected
    ∧ List.Chain' (fun x y => 512 < x ∧ y = x / 2)
        (reserveAttempts alloc (initBufferSize bufferSizeKiB expected))
    ∧ (∀ a ∈ (reserveAttempts alloc (initBufferSize bufferSizeKiB expected)).tail,
        256 ≤ a)
    ∧ (reserveLoop alloc (initBufferSize bufferSizeKiB expected) = none →
        (∀ a ∈ reserveAttempts alloc (initBufferSize bufferSizeKiB expected),
          alloc a = false)
        ∧ ∃ l, (reserveAttempts alloc (initBufferSize bufferSizeKiB expected)).getLast?
              = some l ∧ l ≤ 512 ∧ alloc l = false) := by
  refine ⟨Nat.min_le_right _ _, reserveAttempts_chain _ _,
    reserveAttempts_tail_ge _ _, fun hn => ⟨reserveLoop_none_allFail _ _ hn,
    reserveLoop_none_last _ _ hn⟩⟩

/-- Witness for C4: the amended theorem applied at the counterexample
input. -/
theorem C4_buffer_allocation_witness :
    (∀ a ∈ reserveAttempts (fun _ => false) (initBufferSize 2048 1500),
      (fun _ => (false : Bool)) a = false)
    ∧ ∃ l, (reserveAttempts (fun _ => false) (initBufferSize 2048 1500)).getLast?
        = some l ∧ l ≤ 512 ∧ (fun _ => (false : Bool)) l = false :=
  (C4_buffer_allocation (fun _ => false) 2048 1500).2.2.2 (by
    rw [initBufferSize]; norm_num
    rw [reserveLoop]; norm_num
    rw [reserveLoop]; norm_num
    rw [reserveLoop]; norm_num)

/-! ### Claim C6 -/

/-- Claim C6: `calculate_file_hash` produces a digest only when the total
number of bytes read equals the expected length, and whenever the read
loop's byte count differs from the expected length the call fails with the
broken-pipe ("entire file could not be hashed") error instead of producing
a digest. -/
theorem C6_hash_length_guard (hashFn : List Nat → HashDigest)
    (alloc : Nat → Bool) (bufferSizeKiB : Nat) (content : List Nat)
    (expected : Nat) :
    (∀ dgst, calculate_file_hash hashFn alloc bufferSizeKiB content expected
        = .ok dgst →
      ∃ b, reserveLoop alloc (initBufferSize bufferSizeKiB expected) = some b
        ∧ (bytesRead b content).length = expected
        ∧ dgst = hashFn (bytesRead b content))
    ∧ (∀ b, reserveLoop alloc (initBufferSize bufferSizeKiB expected) = some b →
        (bytesRead b content).length ≠ expected →
        calculate_file_hash hashFn alloc bufferSizeKiB content expected
          = .error .brokenPipe) := by
  constructor
  · intro dgst hok
    unfold calculate_file_hash at hok
    rcases hres : reserveLoop alloc (initBufferSize bufferSizeKiB expected) with
      _ | b
    · rw [hres] at hok; exact absurd hok (by simp)
    · rw [hres] at hok
      simp only at hok
      by_cases hlen : (bytesRead b content).length = expected
      · rw [if_pos hlen] at hok
        exact ⟨b, rfl, hlen, by simpa using hok.symm⟩
      · rw [if_neg hlen] at hok
        exact absurd hok (by simp)
  · intro b hres hlen
    unfold calculate_file_hash
    rw [hres]
    simp only
    rw [if_neg hlen]

/-- Witness for C6: hashing a 3-byte file announced as 5 bytes long fails
with the broken-pipe error. -/
theorem C6_hash_length_guard_witness :
    calculate_file_hash (fun l => l.length) (fun _ => true) 1 [7, 7, 7] 5
      = .error .brokenPipe := by
  refine (C6_hash_length_guard (fun l => l.length) (fun _ => true) 1 [7, 7, 7]
    5).2 5 ?_ ?_
  · rw [initBufferSize]; norm_num
    rw [reserveLoop]; norm_num
  · rw [bytesRead]
    rw [readChunks]; norm_num
    rw [readChunks]; norm_num

/-! ### Claim C8 -/

/-- Claim C8: when `scan_dir` on a directory fails, setting
`ignore_scan_errors` demotes the failure to the empty entry list (never a
partial listing, whatever was gathered before the failure), while leaving
the flag unset propagates exactly that error. -/
theorem C8_scan_error_demotion (find? : Option (String → Option (Nat × Nat)))
    (minKiB : Nat) (rd : Except String (List (Except String DirEnt)))
    (e : String) (h : scan_dir find? minKiB rd = .error e) :
    scan_dir_with_context find? minKiB rd true = .ok []
    ∧ scan_dir_with_context find? minKiB rd false = .error e := by
  constructor <;> · unfold scan_dir_with_context; rw [h]

/-- Witness for C8: a stream whose first entry is a good subdirectory and
whose second read fails yields the empty result under the flag — not the
partial listing containing the subdirectory — and the error otherwise. -/
theorem C8_scan_error_demotion_witness :
    scan_dir_with_context none 1024
      (.ok [.ok ⟨"sub", .dir, 0, 0, 0, none, none⟩, .error "boom"]) true = .ok []
    ∧ scan_dir_with_context none 1024
      (.ok [.ok ⟨"sub", .dir, 0, 0, 0, none, none⟩, .error "boom"]) false
        = .error "boom" :=
  C8_scan_error_demotion none 1024
    (.ok [.ok ⟨"sub", .dir, 0, 0, 0, none, none⟩, .error "boom"]) "boom" rfl

/-! ### Claim C3 -/

theorem scanEntry_file_inv (find : String → Option (Nat × Nat)) (minKiB : Nat)
    (ent : DirEnt) (fr : FileRec)
    (h : scanEntry (some find) minKiB ent = .ok (some (.File fr))) :
    fr = ⟨ent.name, ent.size, ent.storage_uid, ent.file_id⟩
    ∧ ent.metaErr = none ∧ ent.kind = .file ∧ ent.statErr = none
    ∧ ent.size ≠ 0 ∧ ent.size ≥ minKiB * 1024
    ∧ find ent.name = some (0, ent.name.length) := by
  unfold scanEntry at h
  rcases hmeta : ent.metaErr with _ | err
  · rw [hmeta] at h
    rcases hkind : ent.kind <;> rw [hkind] at h
    case symlink => exact absurd h (by simp)
    case dir => exact absurd h (by simp)
    case other => exact absurd h (by simp)
    case file =>
      rcases hfind : find ent.name with _ | ⟨s, en⟩ <;>
        simp only [hfind] at h
      · exact absurd h (by simp)
      · by_cases hs : s = 0
        · by_cases hen : en = ent.name.length
          · subst hs; subst hen
            rw [if_pos (by simp)] at h
            rcases hstat : ent.statErr with _ | err2 <;> rw [hstat] at h
            · by_cases hgate : ent.size ≠ 0 ∧ ent.size ≥ minKiB * 1024
              · rw [if_pos hgate] at h
                simp only [Except.ok.injEq, Option.some.injEq] at h
                cases h
                exact ⟨rfl, rfl, rfl, rfl, hgate.1, hgate.2, rfl⟩
              · rw [if_neg hgate] at h
                exact absurd h (by simp)
            · exact absurd h (by simp)
          · rw [if_neg (by simp [hen])] at h
            exact absurd h (by simp)
        · rw [if_neg (by simp [hs])] at h
          exact absurd h (by simp)
  · rw [hmeta] at h
    exact absurd h (by simp)

theorem scanEntry_file_emit (find : String → Option (Nat × Nat)) (minKiB : Nat)
    (ent : DirEnt) (hmeta : ent.metaErr = none) (hkind : ent.kind = .file)
    (hstat : ent.statErr = none) (hsz : ent.size ≠ 0)
    (hge : ent.size ≥ minKiB * 1024)
    (hfind : find ent.name = some (0, ent.name.length)) :
    scanEntry (some find) minKiB ent
      = .ok (some (.File ⟨ent.name, ent.size, ent.storage_uid, ent.file_id⟩)) := by
  unfold scanEntry
  rw [hmeta, hkind, hstat]
  simp only [hfind]
  rw [if_pos (by simp)]
  rw [if_pos ⟨hsz, hge⟩]

theorem scanEntries_sound (find : String → Option (Nat × Nat)) (minKiB : Nat) :
    ∀ (entries : List (Except String DirEnt)) (out : List ScanItem),
    scanEntries (some find) minKiB entries = .ok out →
    ∀ fr : FileRec, ScanItem.File fr ∈ out →
      find fr.path = some (0, fr.path.length) := by
  intro entries
  induction entries with
  | nil =>
    intro out h fr hmem
    unfold scanEntries at h
    simp only [Except.ok.injEq] at h
    subst h
    simp at hmem
  | cons hd tl ih =>
    intro out h fr hmem
    rcases hd with e | ent
    · unfold scanEntries at h
      exact absurd h (by simp)
    · unfold scanEntries at h
      rcases hse : scanEntry (some find) minKiB ent with e2 | oitem
      · rw [hse] at h; exact absurd h (by simp)
      · rw [hse] at h
        rcases oitem with _ | item
        · exact ih out h fr hmem
        · rcases hrest : scanEntries (some find) minKiB tl with e3 | items
          · rw [hrest] at h; exact absurd h (by simp)
          · rw [hrest] at h
            simp only [Except.ok.injEq] at h
            subst h
            rcases List.mem_cons.mp hmem with heq | hmem2
            · subst heq
              obtain ⟨hfr, _, _, _, _, _, hfind⟩ :=
                scanEntry_file_inv find minKiB ent fr hse
              subst hfr
              exact hfind
            · exact ih items hrest fr hmem2

theorem scanEntries_complete (find : String → Option (Nat × Nat))
    (minKiB : Nat) :
    ∀ (entries : List (Except String DirEnt)) (out : List ScanItem),
    scanEntries (some find) minKiB entries = .ok out →
    ∀ ent : DirEnt, Except.ok ent ∈ entries →
      ent.metaErr = none → ent.kind = .file → ent.statErr = none →
      ent.size ≠ 0 → ent.size ≥ minKiB * 1024 →
      find ent.name = some (0, ent.name.length) →
      ScanItem.File ⟨ent.name, ent.size, ent.storage_uid, ent.file_id⟩ ∈ out := by
  intro entries
  induction entries with
  | nil =>
    intro out h ent hmem
    simp at hmem
  | cons hd tl ih =>
    intro out h ent hmem hmeta hkind hstat hsz hge hfind
    rcases hd with e | ent0
    · unfold scanEntries at h
      exact absurd h (by simp)
    · unfold scanEntries at h
      rcases List.mem_cons.mp hmem with heq | hmem2
      · have hent : ent0 = ent := by
          injection heq.symm
        subst hent
        rw [scanEntry_file_emit find minKiB ent0 hmeta hkind hstat hsz hge
          hfind] at h
        rcases hrest : scanEntries (some find) minKiB tl with e3 | items
        · rw [hrest] at h; exact absurd h (by simp)
        · rw [hrest] at h
          simp only [Except.ok.injEq] at h
          subst h
          exact List.mem_cons_self _ _
      · rcases hse : scanEntry (some find) minKiB ent0 with e2 | oitem
        · rw [hse] at h; exact absurd h (by simp)
        · rw [hse] at h
          rcases oitem with _ | item
          · exact ih out h ent hmem2 hmeta hkind hstat hsz hge hfind
          · rcases hrest : scanEntries (some find) minKiB tl with e3 | items
            · rw [hrest] at h; exact absurd h (by simp)
            · rw [hrest] at h
              simp only [Except.ok.injEq] at h
              subst h
              exact List.mem_cons_of_mem _
                (ih items hrest ent hmem2 hmeta hkind hstat hsz hge hfind)

/-- Claim C3: with a pattern configured, a File record is emitted for a
name exactly when the black-box regex search reports a first match spanning
the whole name.  Soundness: every emitted File record's name fully matches
(so partial matches and non-matches never yield a record).  Completeness:
every well-formed regular-file entry passing the size gate whose name fully
matches is emitted. -/
theorem C3_full_match_filter (find : String → Option (Nat × Nat))
    (minKiB : Nat) (rd : Except String (List (Except String DirEnt)))
    (out : List ScanItem) (h : scan_dir (some find) minKiB rd = .ok out) :
    (∀ fr : FileRec, ScanItem.File fr ∈ out →
        find fr.path = some (0, fr.path.length))
    ∧ (∀ entries, rd = .ok entries →
        ∀ ent : DirEnt, Except.ok ent ∈ entries → ent.metaErr = none →
        ent.kind = .file → ent.statErr = none → ent.size ≠ 0 →
        ent.size ≥ minKiB * 1024 →
        find ent.name = some (0, ent.name.length) →
        ScanItem.File ⟨ent.name, ent.size, ent.storage_uid, ent.file_id⟩
          ∈ out) := by
  rcases rd with e | entries
  · exact absurd h (by simp [scan_dir])
  · unfold scan_dir at h
    constructor
    · exact scanEntries_sound find minKiB entries out h
    · intro entries2 heq
      injection heq with heq2
      subst heq2
      exact scanEntries_complete find minKiB entries out h

/-- Witness for C3: with a search function fully matching only `keep.bin`,
a scan of `keep.bin` (full match, emitted) and `xskip` (match starting at
offset 1, rejected) emits exactly the record for `keep.bin`. -/
theorem C3_full_match_filter_witness :
    ScanItem.File ⟨"keep.bin", 1048576, 7, 9⟩ ∈ [ScanItem.File ⟨"keep.bin", 1048576, 7, 9⟩]
    ∧ ∀ fr : FileRec,
        ScanItem.File fr ∈ [ScanItem.File ⟨"keep.bin", 1048576, 7, 9⟩] →
        (fun s => if s = "keep.bin" then some (0, String.length "keep.bin")
                  else if s = "xskip" then some (1, 5) else none) fr.path
          = some (0, fr.path.length) := by
  have h := C3_full_match_filter
    (fun s => if s = "keep.bin" then some (0, String.length "keep.bin")
              else if s = "xskip" then some (1, 5) else none) 1024
    (.ok [.ok ⟨"keep.bin", .file, 1048576, 7, 9, none, none⟩,
          .ok ⟨"xskip", .file, 1048576, 7, 9, none, none⟩])
    [ScanItem.File ⟨"keep.bin", 1048576, 7, 9⟩] (by rfl)
  refine ⟨?_, h.1⟩
  exact h.2 _ rfl ⟨"keep.bin", .file, 1048576, 7, 9, none, none⟩
    (by simp) rfl rfl rfl (by norm_num) (by norm_num) (by simp)

/-! ### Claim C5 -/

theorem stagingPath_ne (r ext : String) : stagingPath r ext ≠ r := by
  intro h
  have hlen := congrArg String.length h
  have h1 : String.length "." = 1 := rfl
  simp only [stagingPath, String.length_append, h1] at hlen
  omega

theorem mergePhaseLink_no_remove (a : MergeArgs) (o : FsOracle)
    (x y p : String) : FsAct.removeFile p ∉ (mergePhaseLink a o x y).1 := by
  unfold mergePhaseLink
  split <;> simp

theorem mergePhaseSwap_remove (a : MergeArgs) (o : FsOracle)
    (stg red p : String) (h : FsAct.removeFile p ∈ (mergePhaseSwap a o stg red).1) :
    p = stg := by
  unfold mergePhaseSwap at h
  split at h
  · simp at h
  · split at h
    · simp at h
    · split at h
      · split at h
        · simp at h
        · split at h
          · simp at h
          · simp at h
            exact h
      · split at h
        · simp at h
        · simp at h
          exact h

theorem mergePhaseReadonly_no_remove (a : MergeArgs) (o : FsOracle)
    (x p : String) : FsAct.removeFile p ∉ (mergePhaseReadonly a o x).1 := by
  unfold mergePhaseReadonly
  split
  · simp
  · split
    · simp
    · split
      · simp
      · split <;> simp

theorem merge_removeFile_staging (a : MergeArgs) (o : FsOracle)
    (orig red p : String)
    (h : FsAct.removeFile p ∈ (merge_with_hard_link a o orig red).1) :
    p = stagingPath red a.temporary_extension := by
  simp only [merge_with_hard_link] at h
  split at h
  · exact absurd h (mergePhaseLink_no_remove a o orig _ p)
  · split at h
    · rcases List.mem_append.mp h with h1 | h2
      · exact absurd h1 (mergePhaseLink_no_remove a o orig _ p)
      · exact mergePhaseSwap_remove a o _ red p h2
    · rcases List.mem_append.mp h with h12 | h3
      · rcases List.mem_append.mp h12 with h1 | h2
        · exact absurd h1 (mergePhaseLink_no_remove a o orig _ p)
        · exact mergePhaseSwap_remove a o _ red p h2
      · exact absurd h3 (mergePhaseReadonly_no_remove a o orig p)

/-- Claim C5: when the atomic rename of the staging path over the redundant
path fails (and the rollback deletion itself succeeds), the executor
deletes the staging path and surfaces exactly the rename error; its action
trace is the hard-link creation, the metadata read, an optional
read-only-bit clear, the failing rename, and the staging deletion — and in
every configuration the executor never deletes the redundant path itself
(the redundant path is replaced only by the atomic rename). -/
theorem C5_rename_failure_rollback (a : MergeArgs) (o : FsOracle)
    (original redundant : String) (ro : Bool) (e : String)
    (hdry : a.dry_run = false) (hlink : o.hardLinkErr = none)
    (hmeta : o.redundantMeta = .ok ro)
    (hclear : ro = true → o.clearReadonlyErr = none)
    (hren : o.renameErr = some e) (hrem : o.removeErr = none) :
    (merge_with_hard_link a o original redundant).2 = some e
    ∧ (merge_with_hard_link a o original redundant).1
        = [.hardLink original (stagingPath redundant a.temporary_extension),
           .readMeta redundant]
          ++ (if ro then [FsAct.clearReadonly redundant] else [])
          ++ [.rename (stagingPath redundant a.temporary_extension) redundant,
              .removeFile (stagingPath redundant a.temporary_extension)]
    ∧ (∀ (a2 : MergeArgs) (o2 : FsOracle),
        FsAct.removeFile redundant ∉ (merge_with_hard_link a2 o2 original redundant).1) := by
  have hs1 : mergePhaseLink a o original
      (stagingPath redundant a.temporary_extension)
      = ([.hardLink original (stagingPath redundant a.temporary_extension)],
         none) := by
    unfold mergePhaseLink
    rw [if_neg (by simp [hdry]), hlink]
  have hs2 : mergePhaseSwap a o (stagingPath redundant a.temporary_extension)
      redundant
      = ([FsAct.readMeta redundant]
          ++ (if ro then [FsAct.clearReadonly redundant] else [])
          ++ [.rename (stagingPath redundant a.temporary_extension) redundant,
              .removeFile (stagingPath redundant a.temporary_extension)],
         some e) := by
    unfold mergePhaseSwap
    rw [if_neg (by simp [hdry]), hmeta]
    rcases ro with _ | _
    · simp only [Bool.false_eq_true, if_false, hren, hrem]
      rfl
    · simp only [if_true, hclear rfl, hren, hrem]
      rfl
  have hgen : ∀ (a2 : MergeArgs) (o2 : FsOracle),
      FsAct.removeFile redundant ∉ (merge_with_hard_link a2 o2 original redundant).1 := by
    intro a2 o2 hmem
    exact stagingPath_ne redundant a2.temporary_extension
      (merge_removeFile_staging a2 o2 original redundant redundant hmem).symm
  refine ⟨?_, ?_, hgen⟩
  · simp only [merge_with_hard_link]
    rw [hs1, hs2]
  · simp only [merge_with_hard_link]
    rw [hs1, hs2]
    simp

/-- Witness for C5: a concrete rename failure with successful rollback. -/
theorem C5_rename_failure_rollback_witness :
    (merge_with_hard_link ⟨false, false, "hard_link"⟩
      ⟨none, .ok false, none, some "rename failed", none, .ok true, none⟩
      "a" "b").2 = some "rename failed"
    ∧ (merge_with_hard_link ⟨false, false, "hard_link"⟩
      ⟨none, .ok false, none, some "rename failed", none, .ok true, none⟩
      "a" "b").1
        = [.hardLink "a" (stagingPath "b" "hard_link"), .readMeta "b"]
          ++ (if false then [FsAct.clearReadonly "b"] else [])
          ++ [.rename (stagingPath "b" "hard_link") "b",
              .removeFile (stagingPath "b" "hard_link")]
    ∧ (∀ (a2 : MergeArgs) (o2 : FsOracle),
        FsAct.removeFile "b" ∉ (merge_with_hard_link a2 o2 "a" "b").1) :=
  C5_rename_failure_rollback ⟨false, false, "hard_link"⟩
    ⟨none, .ok false, none, some "rename failed", none, .ok true, none⟩
    "a" "b" false "rename failed" rfl rfl rfl (by intro h; cases h) rfl rfl

/-! ### Claim C7 -/

/-- Claim C7: a file record whose (volume, extent) pair is already present
in the file-entry table never spawns a hash task and never changes the
wasted-space counter, whatever the entry's state. -/
theorem C7_no_rehash (d : StorageUid → FileId → Option HashDigest)
    (s : RunState) (i : Nat) (r : FileRec) (entry : FileEntry)
    (hok : s.failed = none)
    (hr : s.pendingFiles[i]? = some r)
    (hocc : lookupA r.file_id (scOf s r.storage_uid).files = some entry) :
    (step d s (.file i)).pendingHashes = s.pendingHashes
    ∧ (step d s (.file i)).wasted = s.wasted := by
  unfold step
  rw [if_neg (by simp [hok])]
  simp only [hr]
  unfold processFileRec
  rw [hocc]
  rcases hcw : chainWalk r.file_id r.path (scOf s r.storage_uid).files
      ((scOf s r.storage_uid).files.length + 1) r.file_id entry with
    f2 | tgt | m <;> simp [hcw]

/-- Witness for C7: a second record for an already-seen extent spawns
nothing. -/
theorem C7_no_rehash_witness :
    (step (fun _ _ => none)
      ⟨[(0, ⟨[(5, some 1)], [], [(1, FileEntry.Files "p1" [])]⟩)], 0,
       [⟨"p2", 5, 0, 1⟩], [], [], none⟩ (.file 0)).pendingHashes = []
    ∧ (step (fun _ _ => none)
      ⟨[(0, ⟨[(5, some 1)], [], [(1, FileEntry.Files "p1" [])]⟩)], 0,
       [⟨"p2", 5, 0, 1⟩], [], [], none⟩ (.file 0)).wasted = 0 :=
  C7_no_rehash (fun _ _ => none)
    ⟨[(0, ⟨[(5, some 1)], [], [(1, FileEntry.Files "p1" [])]⟩)], 0,
     [⟨"p2", 5, 0, 1⟩], [], [], none⟩ 0 ⟨"p2", 5, 0, 1⟩
    (FileEntry.Files "p1" []) rfl rfl rfl

/-! ### Claim C2 -/

/-- Claim C2: for a fresh extent, the size bucket drives hashing. A vacant
bucket records the extent as sole representative and spawns nothing; a
bucket naming a prior sole extent spawns hash tasks for both the prior
extent and the new one and becomes the hashing-in-progress sentinel; a
bucket already holding the sentinel spawns a task only for the new
extent. -/
theorem C2_size_bucket (d : StorageUid → FileId → Option HashDigest)
    (s : RunState) (i : Nat) (r : FileRec)
    (hok : s.failed = none)
    (hr : s.pendingFiles[i]? = some r)
    (hfresh : lookupA r.file_id (scOf s r.storage_uid).files = none) :
    (lookupA r.size (scOf s r.storage_uid).file_sizes = none →
       (step d s (.file i)).pendingHashes = s.pendingHashes
       ∧ lookupA r.size (scOf (step d s (.file i)) r.storage_uid).file_sizes
           = some (some r.file_id))
    ∧ (∀ first_id first_path ls,
        lookupA r.size (scOf s r.storage_uid).file_sizes = some (some first_id) →
        lookupA first_id (scOf s r.storage_uid).files
          = some (.Files first_path ls) →
        (step d s (.file i)).pendingHashes
          = s.pendingHashes ++ [⟨r.storage_uid, first_id, r.size, first_path⟩,
                                ⟨r.storage_uid, r.file_id, r.size, r.path⟩]
        ∧ lookupA r.size (scOf (step d s (.file i)) r.storage_uid).file_sizes
            = some none)
    ∧ (lookupA r.size (scOf s r.storage_uid).file_sizes = some none →
        (step d s (.file i)).pendingHashes
          = s.pendingHashes ++ [⟨r.storage_uid, r.file_id, r.size, r.path⟩]) := by
  refine ⟨?_, ?_, ?_⟩
  · intro hvac
    unfold step
    rw [if_neg (by simp [hok])]
    simp only [hr]
    unfold processFileRec
    simp only [hfresh, hvac]
    simp [scOf, lookupA_upsertA_self]
  · intro first_id first_path ls hsome hfirst
    have hne : first_id ≠ r.file_id := by
      intro hc
      rw [hc, hfresh] at hfirst
      exact absurd hfirst (by simp)
    unfold step
    rw [if_neg (by simp [hok])]
    simp only [hr]
    unfold processFileRec
    simp only [hfresh, hsome,
      lookupA_upsertA_ne (FileEntry.Files r.path [])
        (scOf s r.storage_uid).files (Ne.symm hne), hfirst]
    simp [scOf, lookupA_upsertA_self]
  · intro hsent
    unfold step
    rw [if_neg (by simp [hok])]
    simp only [hr]
    unfold processFileRec
    simp only [hfresh, hsent]

/-- Witness for C2: a second distinct extent of a bucketed size queues
hashing for the prior sole extent and for itself, and the bucket becomes
the sentinel. -/
theorem C2_size_bucket_witness :
    (step (fun _ _ => none)
      ⟨[(0, ⟨[(5, some 1)], [], [(1, FileEntry.Files "p1" [])]⟩)], 0,
       [⟨"p2", 5, 0, 2⟩], [], [], none⟩ (.file 0)).pendingHashes
      = [] ++ [⟨0, 1, 5, "p1"⟩, ⟨0, 2, 5, "p2"⟩]
    ∧ lookupA 5 (scOf (step (fun _ _ => none)
        ⟨[(0, ⟨[(5, some 1)], [], [(1, FileEntry.Files "p1" [])]⟩)], 0,
         [⟨"p2", 5, 0, 2⟩], [], [], none⟩ (.file 0)) 0).file_sizes
      = some none :=
  (C2_size_bucket (fun _ _ => none)
    ⟨[(0, ⟨[(5, some 1)], [], [(1, FileEntry.Files "p1" [])]⟩)], 0,
     [⟨"p2", 5, 0, 2⟩], [], [], none⟩ 0 ⟨"p2", 5, 0, 2⟩
    rfl rfl rfl).2.1 1 "p1" [] rfl rfl

/-! ### Claim C1 -/

/-- Claim C1 counterexample: paths `p2` and `p3` share extent 2, which is a
duplicate of extent 1; the matching hash completion performs two link-swaps
but adds the length (5) to the wasted-space counter once, refuting the
claim that performing k links adds k·length. -/
theorem C1_counterexample :
    (run (fun _ _ => some 42)
      [⟨"p1", 5, 0, 1⟩, ⟨"p2", 5, 0, 2⟩, ⟨"p3", 5, 0, 2⟩]
      [.file 0, .file 0, .file 0, .hash 0, .hash 0]).merges
      = [("p1", "p3"), ("p1", "p2")]
    ∧ (run (fun _ _ => some 42)
      [⟨"p1", 5, 0, 1⟩, ⟨"p2", 5, 0, 2⟩, ⟨"p3", 5, 0, 2⟩]
      [.file 0, .file 0, .file 0, .hash 0, .hash 0]).wasted = 5
    ∧ (run (fun _ _ => some 42)
      [⟨"p1", 5, 0, 1⟩, ⟨"p2", 5, 0, 2⟩, ⟨"p3", 5, 0, 2⟩]
      [.file 0, .file 0, .file 0, .hash 0, .hash 0]).wasted ≠ 2 * 5 := by
  refine ⟨by decide, by decide, by decide⟩

/-- Claim C1 (amended): when a completed hash finds its (length, digest)
already in the hash bucket, the extent's row becomes an Alias (`LinkTo`)
of the representative, a link-swap is issued from the representative path
to every redundant path (the stored alias paths plus the row's own
original path), and the length is added to the wasted-space counter once
per matching hash completion — not once per link performed. -/
theorem C1_hash_match (d : StorageUid → FileId → Option HashDigest)
    (s : RunState) (i : Nat) (t : HashTask) (dig : HashDigest)
    (sc : StorageContent) (orig_id : FileId) (new_file : String)
    (new_links : List String) (orig_path : String)
    (hok : s.failed = none)
    (ht : s.pendingHashes[i]? = some t)
    (hd : d t.storage_uid t.file_id = some dig)
    (hsc : lookupA t.storage_uid s.known = some sc)
    (hhash : lookupA (t.size, dig) sc.hashes = some orig_id)
    (hfiles : lookupA t.file_id sc.files = some (.Files new_file new_links))
    (horig : lookupA orig_id (upsertA t.file_id (.LinkTo orig_id) sc.files)
        = some (.OriginalFile orig_path)) :
    (step d s (.hash i)).wasted = s.wasted + t.size
    ∧ (step d s (.hash i)).merges
        = s.merges ++ (insertIfAbsent new_file new_links).map
            (fun p => (orig_path, p))
    ∧ lookupA t.file_id (scOf (step d s (.hash i)) t.storage_uid).files
        = some (.LinkTo orig_id)
    ∧ (step d s (.hash i)).failed = none := by
  unfold step
  rw [if_neg (by simp [hok])]
  simp only [ht, hd, hsc]
  unfold processHashRec
  simp only [hhash, hfiles, horig]
  simp [scOf, lookupA_upsertA_self]

/-- Witness for C1: a matching completion for extent 2 (paths `p2`, `p3`)
against representative extent 1. -/
theorem C1_hash_match_witness :
    (step (fun _ _ => some 42)
      ⟨[(0, ⟨[(5, none)], [((5, 42), 1)],
            [(1, FileEntry.OriginalFile "p1"), (2, FileEntry.Files "p2" ["p3"])]⟩)],
       0, [], [⟨0, 2, 5, "p2"⟩], [], none⟩ (.hash 0)).wasted = 0 + 5
    ∧ (step (fun _ _ => some 42)
      ⟨[(0, ⟨[(5, none)], [((5, 42), 1)],
            [(1, FileEntry.OriginalFile "p1"), (2, FileEntry.Files "p2" ["p3"])]⟩)],
       0, [], [⟨0, 2, 5, "p2"⟩], [], none⟩ (.hash 0)).merges
      = [] ++ (insertIfAbsent "p2" ["p3"]).map (fun p => ("p1", p))
    ∧ lookupA 2 (scOf (step (fun _ _ => some 42)
      ⟨[(0, ⟨[(5, none)], [((5, 42), 1)],
            [(1, FileEntry.OriginalFile "p1"), (2, FileEntry.Files "p2" ["p3"])]⟩)],
       0, [], [⟨0, 2, 5, "p2"⟩], [], none⟩ (.hash 0)) 0).files
      = some (FileEntry.LinkTo 1)
    ∧ (step (fun _ _ => some 42)
      ⟨[(0, ⟨[(5, none)], [((5, 42), 1)],
            [(1, FileEntry.OriginalFile "p1"), (2, FileEntry.Files "p2" ["p3"])]⟩)],
       0, [], [⟨0, 2, 5, "p2"⟩], [], none⟩ (.hash 0)).failed = none :=
  C1_hash_match (fun _ _ => some 42)
    ⟨[(0, ⟨[(5, none)], [((5, 42), 1)],
          [(1, FileEntry.OriginalFile "p1"), (2, FileEntry.Files "p2" ["p3"])]⟩)],
     0, [], [⟨0, 2, 5, "p2"⟩], [], none⟩ 0 ⟨0, 2, 5, "p2"⟩ 42
    ⟨[(5, none)], [((5, 42), 1)],
     [(1, FileEntry.OriginalFile "p1"), (2, FileEntry.Files "p2" ["p3"])]⟩
    1 "p2" ["p3"] "p1" rfl rfl rfl rfl rfl rfl (by decide)

/-! ### Characterizations of the coordinator's event handlers -/

theorem lookupA_ne_nil {α β : Type} [DecidableEq α] {k : α} {v : β}
    {l : List (α × β)} (h : lookupA k l = some v) : l ≠ [] := by
  intro hc
  subst hc
  simp [lookupA] at h

theorem getElem?_eraseIdx_rel {α : Type} (R : α → α → Prop)
    (hsymm : ∀ a b, R a b → R b a) :
    ∀ (l : List α) (i : Nat) (x : α), l[i]? = some x → l.Pairwise R →
      ∀ y ∈ l.eraseIdx i, R x y := by
  intro l
  induction l with
  | nil => intro i x hx; simp at hx
  | cons hd tl ih =>
    intro i x hx hp
    rcases List.pairwise_cons.mp hp with ⟨hhd, htl⟩
    cases i with
    | zero =>
      simp only [List.getElem?_cons_zero, Option.some.injEq] at hx
      subst hx
      simpa [List.eraseIdx] using hhd
    | succ n =>
      simp only [List.getElem?_cons_succ] at hx
      intro y hy
      simp only [List.eraseIdx_cons_succ, List.mem_cons] at hy
      rcases hy with rfl | hy
      · exact hsymm _ _ (hhd x (List.getElem?_mem hx))
      · exact ih n x hx htl y hy

theorem pairwise_eraseIdx {α : Type} {R : α → α → Prop} (l : List α) (i : Nat)
    (h : l.Pairwise R) : (l.eraseIdx i).Pairwise R :=
  h.sublist (List.eraseIdx_sublist l i)

theorem chainWalk_files (q : FileId) (path : String)
    (files : List (FileId × FileEntry)) (p : String) (ls : List String)
    (fuel : Nat) :
    chainWalk q path files (fuel + 1) q (.Files p ls)
      = .noMerge (upsertA q (.Files p (insertIfAbsent path ls)) files) := by
  unfold chainWalk
  simp

theorem chainWalk_original_self (q : FileId) (path : String)
    (files : List (FileId × FileEntry)) (p : String) (fuel : Nat) :
    chainWalk q path files (fuel + 1) q (.OriginalFile p) = .noMerge files := by
  unfold chainWalk
  simp

theorem chainWalk_linkTo (q : FileId) (path : String)
    (files : List (FileId × FileEntry)) (t : FileId) (p : String)
    (fuel : Nat) (ht : t ≠ q)
    (htp : lookupA t files = some (.OriginalFile p)) :
    chainWalk q path files (fuel + 2) q (.LinkTo t) = .doMerge p := by
  unfold chainWalk
  simp only [htp, if_neg ht]
  unfold chainWalk
  simp only [if_pos ht]

theorem processFileRec_files (r : FileRec) (sc : StorageContent) (p : String)
    (ls : List String)
    (h : lookupA r.file_id sc.files = some (.Files p ls)) :
    processFileRec r sc
      = ⟨{ sc with
            files := upsertA r.file_id
              (.Files p (insertIfAbsent r.path ls)) sc.files },
         [], [], none⟩ := by
  unfold processFileRec
  simp only [h, chainWalk_files]

theorem processFileRec_original (r : FileRec) (sc : StorageContent)
    (p : String) (h : lookupA r.file_id sc.files = some (.OriginalFile p)) :
    processFileRec r sc = ⟨sc, [], [], none⟩ := by
  unfold processFileRec
  simp only [h, chainWalk_original_self]

theorem processFileRec_linkTo (r : FileRec) (sc : StorageContent) (t : FileId)
    (p : String) (h : lookupA r.file_id sc.files = some (.LinkTo t))
    (ht : t ≠ r.file_id) (htp : lookupA t sc.files = some (.OriginalFile p)) :
    processFileRec r sc = ⟨sc, [], [(p, r.path)], none⟩ := by
  obtain ⟨n, hn⟩ : ∃ n, sc.files.length = n + 1 := by
    cases hfiles : sc.files with
    | nil => exact absurd hfiles (lookupA_ne_nil h)
    | cons a l => exact ⟨l.length, by simp [hfiles]⟩
  unfold processFileRec
  simp only [h, hn]
  rw [chainWalk_linkTo r.file_id r.path sc.files t p n ht htp]

theorem processFileRec_vacant_nobucket (r : FileRec) (sc : StorageContent)
    (hfresh : lookupA r.file_id sc.files = none)
    (hvac : lookupA r.size sc.file_sizes = none) :
    processFileRec r sc
      = ⟨{ sc with
            files := upsertA r.file_id (.Files r.path []) sc.files,
            file_sizes := upsertA r.size (some r.file_id) sc.file_sizes },
         [], [], none⟩ := by
  unfold processFileRec
  simp only [hfresh, hvac]

theorem processFileRec_vacant_sole (r : FileRec) (sc : StorageContent)
    (first_id : FileId) (fp : String) (fls : List String)
    (hfresh : lookupA r.file_id sc.files = none)
    (hsole : lookupA r.size sc.file_sizes = some (some first_id))
    (hfirst : lookupA first_id sc.files = some (.Files fp fls)) :
    processFileRec r sc
      = ⟨{ sc with
            files := upsertA r.file_id (.Files r.path []) sc.files,
            file_sizes := upsertA r.size none sc.file_sizes },
         [⟨r.storage_uid, first_id, r.size, fp⟩,
          ⟨r.storage_uid, r.file_id, r.size, r.path⟩], [], none⟩ := by
  have hne : first_id ≠ r.file_id := by
    intro hc
    rw [hc, hfresh] at hfirst
    exact absurd hfirst (by simp)
  unfold processFileRec
  simp only [hfresh, hsole,
    lookupA_upsertA_ne (FileEntry.Files r.path []) sc.files (Ne.symm hne),
    hfirst]

theorem processFileRec_vacant_sentinel (r : FileRec) (sc : StorageContent)
    (hfresh : lookupA r.file_id sc.files = none)
    (hsent : lookupA r.size sc.file_sizes = some none) :
    processFileRec r sc
      = ⟨{ sc with files := upsertA r.file_id (.Files r.path []) sc.files },
         [⟨r.storage_uid, r.file_id, r.size, r.path⟩], [], none⟩ := by
  unfold processFileRec
  simp only [hfresh, hsent]

theorem processHashRec_vacant (fid : FileId) (size : Filesize)
    (dig : HashDigest) (sc : StorageContent) (orig : String)
    (ls : List String)
    (hh : lookupA (size, dig) sc.hashes = none)
    (hf : lookupA fid sc.files = some (.Files orig ls)) :
    processHashRec fid size dig sc
      = ({ sc with hashes := upsertA (size, dig) fid sc.hashes,
                   files := upsertA fid (.OriginalFile orig) sc.files },
         0, [], none) := by
  unfold processHashRec
  simp only [hh, hf]

theorem processHashRec_occupied (fid : FileId) (size : Filesize)
    (dig : HashDigest) (sc : StorageContent) (orig_id : FileId)
    (new_file : String) (new_links : List String) (orig_path : String)
    (hh : lookupA (size, dig) sc.hashes = some orig_id)
    (hf : lookupA fid sc.files = some (.Files new_file new_links))
    (ho : lookupA orig_id (upsertA fid (.LinkTo orig_id) sc.files)
        = some (.OriginalFile orig_path)) :
    processHashRec fid size dig sc
      = ({ sc with files := upsertA fid (.LinkTo orig_id) sc.files },
         size,
         (insertIfAbsent new_file new_links).map (fun p => (orig_path, p)),
         none) := by
  unfold processHashRec
  simp only [hh, hf, ho]

/-! ### Invariant preservation -/

theorem lookupA_upsertA_cases {α β : Type} [DecidableEq α] {k k' : α}
    {v w : β} {l : List (α × β)}
    (h : lookupA k' (upsertA k v l) = some w) :
    (k' = k ∧ w = v) ∨ (k' ≠ k ∧ lookupA k' l = some w) := by
  rw [lookupA_upsertA] at h
  by_cases hk : k = k'
  · rw [if_pos hk] at h
    injection h with h2
    exact Or.inl ⟨hk.symm, h2.symm⟩
  · rw [if_neg hk] at h
    exact Or.inr ⟨fun hc => hk hc.symm, h⟩

theorem scK_upsert_self (known : List (StorageUid × StorageContent))
    (u : StorageUid) (sc' : StorageContent) :
    scK (upsertA u sc' known) u = sc' := by
  simp [scK, lookupA_upsertA_self]

theorem scK_upsert_ne (known : List (StorageUid × StorageContent))
    (u v : StorageUid) (sc' : StorageContent) (h : u ≠ v) :
    scK (upsertA u sc' known) v = scK known v := by
  simp [scK, lookupA_upsertA_ne sc' known h]

theorem invKP_congr (known known' : List (StorageUid × StorageContent))
    (pend : List HashTask) (h : ∀ v, scK known' v = scK known v)
    (hI : InvKP known pend) : InvKP known' pend := by
  obtain ⟨h1, h2, h3, h4, h5⟩ := hI
  refine ⟨fun u => ?_, fun u => ?_, fun t ht => ?_, h4, fun u => ?_⟩
  · rw [h u]; exact h1 u
  · rw [h u]; exact h2 u
  · rw [h t.storage_uid]; exact h3 t ht
  · intro sz f hsz
    rw [h u] at hsz
    simp only [h u]
    exact h5 u sz f hsz

theorem invKP_upsert_same (known : List (StorageUid × StorageContent))
    (pend : List HashTask) (u : StorageUid) (hI : InvKP known pend) :
    InvKP (upsertA u (scK known u) known) pend := by
  refine invKP_congr known _ pend (fun v => ?_) hI
  by_cases hv : u = v
  · subst hv; exact scK_upsert_self known u _
  · exact scK_upsert_ne known u v _ hv

theorem invKP_erase (known : List (StorageUid × StorageContent))
    (pend : List HashTask) (i : Nat) (hI : InvKP known pend) :
    InvKP known (pend.eraseIdx i) := by
  obtain ⟨h1, h2, h3, h4, h5⟩ := hI
  refine ⟨h1, h2, fun t ht => ?_, pairwise_eraseIdx pend i h4, fun u sz f hsz => ?_⟩
  · exact h3 t ((List.eraseIdx_sublist pend i).subset ht)
  · obtain ⟨ha, hb, hc⟩ := h5 u sz f hsz
    exact ⟨ha, fun t ht => hb t ((List.eraseIdx_sublist pend i).subset ht), hc⟩

theorem invKP_files_update (known : List (StorageUid × StorageContent))
    (pend : List HashTask) (u : StorageUid) (fid : FileId)
    (p : String) (ls : List String) (p' : String) (ls' : List String)
    (hI : InvKP known pend)
    (hold : lookupA fid (scK known u).files = some (.Files p ls)) :
    InvKP (upsertA u
      { scK known u with
          files := upsertA fid (.Files p' ls') (scK known u).files } known)
      pend := by
  obtain ⟨h1, h2, h3, h4, h5⟩ := hI
  set sc := scK known u with hsc
  set sc2 : StorageContent :=
    { sc with files := upsertA fid (.Files p' ls') sc.files } with hsc2
  have hKu : scK (upsertA u sc2 known) u = sc2 := scK_upsert_self known u sc2
  have hKv : ∀ v, v ≠ u → scK (upsertA u sc2 known) v = scK known v :=
    fun v hv => scK_upsert_ne known u v sc2 (Ne.symm hv)
  have hfilesback : ∀ g e, g ≠ fid → lookupA g sc.files = some e →
      lookupA g sc2.files = some e := by
    intro g e hg hge
    show lookupA g (upsertA fid (.Files p' ls') sc.files) = some e
    rw [lookupA_upsertA_ne _ _ (Ne.symm hg)]
    exact hge
  refine ⟨fun v => ?_, fun v => ?_, fun t ht => ?_, h4, fun v => ?_⟩
  · by_cases hv : v = u
    · subst hv
      rw [hKu]
      intro sz dg f hh
      obtain ⟨q, hq⟩ := h1 v sz dg f hh
      have hne : f ≠ fid := by
        intro hc
        rw [hc, hold] at hq
        exact absurd hq (by simp)
      exact ⟨q, hfilesback f _ hne hq⟩
    · rw [hKv v hv]
      exact h1 v
  · by_cases hv : v = u
    · subst hv
      rw [hKu]
      intro f t hlink
      rcases lookupA_upsertA_cases hlink with ⟨hfe, habs⟩ | ⟨hne, holdl⟩
      · exact absurd habs (by simp)
      · obtain ⟨hne2, q, hq⟩ := h2 v f t holdl
        have hne3 : t ≠ fid := by
          intro hc
          rw [hc, hold] at hq
          exact absurd hq (by simp)
        exact ⟨hne2, q, hfilesback t _ hne3 hq⟩
    · rw [hKv v hv]
      exact h2 v
  · by_cases hv : t.storage_uid = u
    · rw [hv, hKu]
      obtain ⟨q, qls, hq⟩ := h3 t ht
      rw [hv] at hq
      by_cases hf : t.file_id = fid
      · rw [hf]
        exact ⟨p', ls', lookupA_upsertA_self fid _ sc.files⟩
      · exact ⟨q, qls, hfilesback t.file_id _ hf hq⟩
    · rw [hKv _ hv]
      exact h3 t ht
  · by_cases hv : v = u
    · subst hv
      intro sz f hsz
      rw [hKu] at hsz
      obtain ⟨⟨q, qls, hq⟩, hnp, huniq⟩ := h5 v sz f hsz
      refine ⟨?_, hnp, ?_⟩
      · rw [hKu]
        by_cases hf : f = fid
        · subst hf
          exact ⟨p', ls', lookupA_upsertA_self f _ sc.files⟩
        · exact ⟨q, qls, hfilesback f _ hf hq⟩
      · intro sz2 hsz2
        rw [hKu] at hsz2
        exact huniq sz2 hsz2
    · intro sz f hsz
      rw [hKv v hv] at hsz
      obtain ⟨ha, hb, hc⟩ := h5 v sz f hsz
      rw [hKv v hv]
      exact ⟨ha, hb, hc⟩

theorem invKP_vacant_nobucket (known : List (StorageUid × StorageContent))
    (pend : List HashTask) (u : StorageUid) (fid : FileId) (path : String)
    (size : Filesize) (hI : InvKP known pend)
    (hfresh : lookupA fid (scK known u).files = none)
    (hvac : lookupA size (scK known u).file_sizes = none) :
    InvKP (upsertA u
      { scK known u with
          files := upsertA fid (.Files path []) (scK known u).files,
          file_sizes := upsertA size (some fid) (scK known u).file_sizes }
      known) pend := by
  obtain ⟨h1, h2, h3, h4, h5⟩ := hI
  set sc := scK known u with hsc
  set sc2 : StorageContent :=
    { sc with files := upsertA fid (.Files path []) sc.files,
              file_sizes := upsertA size (some fid) sc.file_sizes } with hsc2
  have hKu : scK (upsertA u sc2 known) u = sc2 := scK_upsert_self known u sc2
  have hKv : ∀ v, v ≠ u → scK (upsertA u sc2 known) v = scK known v :=
    fun v hv => scK_upsert_ne known u v sc2 (Ne.symm hv)
  have hfilesback : ∀ g e, g ≠ fid → lookupA g sc.files = some e →
      lookupA g sc2.files = some e := by
    intro g e hg hge
    show lookupA g (upsertA fid (.Files path []) sc.files) = some e
    rw [lookupA_upsertA_ne _ _ (Ne.symm hg)]
    exact hge
  have hnotfid : ∀ e, lookupA fid sc.files = some e → False := by
    intro e he
    rw [hfresh] at he
    exact absurd he (by simp)
  refine ⟨fun v => ?_, fun v => ?_, fun t ht => ?_, h4, fun v => ?_⟩
  · by_cases hv : v = u
    · subst hv
      rw [hKu]
      intro sz dg f hh
      obtain ⟨q, hq⟩ := h1 v sz dg f hh
      have hne : f ≠ fid := fun hc => hnotfid _ (hc ▸ hq)
      exact ⟨q, hfilesback f _ hne hq⟩
    · rw [hKv v hv]
      exact h1 v
  · by_cases hv : v = u
    · subst hv
      rw [hKu]
      intro f t hlink
      rcases lookupA_upsertA_cases hlink with ⟨hfe, habs⟩ | ⟨hne, holdl⟩
      · exact absurd habs (by simp)
      · obtain ⟨hne2, q, hq⟩ := h2 v f t holdl
        have hne3 : t ≠ fid := fun hc => hnotfid _ (hc ▸ hq)
        exact ⟨hne2, q, hfilesback t _ hne3 hq⟩
    · rw [hKv v hv]
      exact h2 v
  · by_cases hv : t.storage_uid = u
    · rw [hv, hKu]
      obtain ⟨q, qls, hq⟩ := h3 t ht
      rw [hv] at hq
      have hne : t.file_id ≠ fid := fun hc => hnotfid _ (hc ▸ hq)
      exact ⟨q, qls, hfilesback t.file_id _ hne hq⟩
    · rw [hKv _ hv]
      exact h3 t ht
  · by_cases hv : v = u
    · subst hv
      intro sz f hsz
      rw [hKu] at hsz
      rcases lookupA_upsertA_cases hsz with ⟨hse, hfe⟩ | ⟨hne, holdb⟩
      · injection hfe with hfe2
        subst hse
        subst hfe2
        refine ⟨⟨path, [], by rw [hKu]; exact lookupA_upsertA_self f _ sc.files⟩,
          ?_, ?_⟩
        · intro t ht hc
          obtain ⟨q, qls, hq⟩ := h3 t ht
          rw [hc.1] at hq
          rw [hc.2] at hq
          exact hnotfid _ hq
        · intro sz2 hsz2
          rw [hKu] at hsz2
          rcases lookupA_upsertA_cases hsz2 with ⟨hse2, _⟩ | ⟨_, holdb2⟩
          · exact hse2
          · obtain ⟨⟨q, qls, hq⟩, _, _⟩ := h5 v sz2 f holdb2
            exact absurd hq (fun hc => hnotfid _ hc)
      · obtain ⟨⟨q, qls, hq⟩, hnp, huniq⟩ := h5 v sz f holdb
        have hnef : f ≠ fid := fun hc => hnotfid _ (hc ▸ hq)
        refine ⟨⟨q, qls, by rw [hKu]; exact hfilesback f _ hnef hq⟩, hnp, ?_⟩
        intro sz2 hsz2
        rw [hKu] at hsz2
        rcases lookupA_upsertA_cases hsz2 with ⟨hse2, hfe2⟩ | ⟨_, holdb2⟩
        · injection hfe2 with hfe3
          exact absurd hfe3 hnef
        · exact huniq sz2 holdb2
    · intro sz f hsz
      rw [hKv v hv] at hsz
      obtain ⟨ha, hb, hc⟩ := h5 v sz f hsz
      rw [hKv v hv]
      exact ⟨ha, hb, hc⟩

theorem taskKeyNe_symm (a b : HashTask) (h : taskKeyNe a b) : taskKeyNe b a := by
  intro hc
  exact h ⟨hc.1.symm, hc.2.symm⟩

theorem invKP_vacant_sentinel (known : List (StorageUid × StorageContent))
    (pend : List HashTask) (u : StorageUid) (fid : FileId) (path : String)
    (size : Filesize) (hI : InvKP known pend)
    (hfresh : lookupA fid (scK known u).files = none) :
    InvKP (upsertA u
      { scK known u with
          files := upsertA fid (.Files path []) (scK known u).files } known)
      (pend ++ [⟨u, fid, size, path⟩]) := by
  obtain ⟨h1, h2, h3, h4, h5⟩ := hI
  set sc := scK known u with hsc
  set sc2 : StorageContent :=
    { sc with files := upsertA fid (.Files path []) sc.files } with hsc2
  have hKu : scK (upsertA u sc2 known) u = sc2 := scK_upsert_self known u sc2
  have hKv : ∀ v, v ≠ u → scK (upsertA u sc2 known) v = scK known v :=
    fun v hv => scK_upsert_ne known u v sc2 (Ne.symm hv)
  have hfilesback : ∀ g e, g ≠ fid → lookupA g sc.files = some e →
      lookupA g sc2.files = some e := by
    intro g e hg hge
    show lookupA g (upsertA fid (.Files path []) sc.files) = some e
    rw [lookupA_upsertA_ne _ _ (Ne.symm hg)]
    exact hge
  have hnotfid : ∀ e, lookupA fid sc.files = some e → False := by
    intro e he
    rw [hfresh] at he
    exact absurd he (by simp)
  refine ⟨fun v => ?_, fun v => ?_, fun t ht => ?_, ?_, fun v => ?_⟩
  · by_cases hv : v = u
    · subst hv
      rw [hKu]
      intro sz dg f hh
      obtain ⟨q, hq⟩ := h1 v sz dg f hh
      exact ⟨q, hfilesback f _ (fun hc => hnotfid _ (hc ▸ hq)) hq⟩
    · rw [hKv v hv]
      exact h1 v
  · by_cases hv : v = u
    · subst hv
      rw [hKu]
      intro f t hlink
      rcases lookupA_upsertA_cases hlink with ⟨hfe, habs⟩ | ⟨hne, holdl⟩
      · exact absurd habs (by simp)
      · obtain ⟨hne2, q, hq⟩ := h2 v f t holdl
        exact ⟨hne2, q, hfilesback t _ (fun hc => hnotfid _ (hc ▸ hq)) hq⟩
    · rw [hKv v hv]
      exact h2 v
  · rcases List.mem_append.mp ht with hto | htn
    · by_cases hv : t.storage_uid = u
      · rw [hv, hKu]
        obtain ⟨q, qls, hq⟩ := h3 t hto
        rw [hv] at hq
        exact ⟨q, qls, hfilesback t.file_id _ (fun hc => hnotfid _ (hc ▸ hq)) hq⟩
      · rw [hKv _ hv]
        exact h3 t hto
    · rcases List.mem_singleton.mp htn with rfl
      rw [hKu]
      exact ⟨path, [], lookupA_upsertA_self fid _ sc.files⟩
  · unfold PendDistinct
    rw [List.pairwise_append]
    refine ⟨h4, by simp [PendDistinct], ?_⟩
    intro a ha b hb
    rcases List.mem_singleton.mp hb with rfl
    intro hc
    obtain ⟨q, qls, hq⟩ := h3 a ha
    rw [hc.1] at hq
    rw [hc.2] at hq
    exact hnotfid _ hq
  · by_cases hv : v = u
    · subst hv
      intro sz f hsz
      rw [hKu] at hsz
      obtain ⟨⟨q, qls, hq⟩, hnp, huniq⟩ := h5 v sz f hsz
      have hnef : f ≠ fid := fun hc => hnotfid _ (hc ▸ hq)
      refine ⟨⟨q, qls, by rw [hKu]; exact hfilesback f _ hnef hq⟩, ?_, ?_⟩
      · intro t ht
        rcases List.mem_append.mp ht with hto | htn
        · exact hnp t hto
        · rcases List.mem_singleton.mp htn with rfl
          intro hc
          exact hnef hc.2.symm
      · intro sz2 hsz2
        rw [hKu] at hsz2
        exact huniq sz2 hsz2
    · intro sz f hsz
      rw [hKv v hv] at hsz
      obtain ⟨ha, hb, hc⟩ := h5 v sz f hsz
      rw [hKv v hv]
      refine ⟨ha, ?_, hc⟩
      intro t ht
      rcases List.mem_append.mp ht with hto | htn
      · exact hb t hto
      · rcases List.mem_singleton.mp htn with rfl
        intro hcc
        exact hv hcc.1.symm

theorem invKP_vacant_sole (known : List (StorageUid × StorageContent))
    (pend : List HashTask) (u : StorageUid) (fid : FileId) (path : String)
    (size : Filesize) (first : FileId) (fp : String) (fls : List String)
    (hI : InvKP known pend)
    (hfresh : lookupA fid (scK known u).files = none)
    (hsole : lookupA size (scK known u).file_sizes = some (some first))
    (hfirst : lookupA first (scK known u).files = some (.Files fp fls)) :
    InvKP (upsertA u
      { scK known u with
          files := upsertA fid (.Files path []) (scK known u).files,
          file_sizes := upsertA size none (scK known u).file_sizes } known)
      (pend ++ [⟨u, first, size, fp⟩, ⟨u, fid, size, path⟩]) := by
  obtain ⟨h1, h2, h3, h4, h5⟩ := hI
  obtain ⟨_, hnp_first, huniq_first⟩ := h5 u size first hsole
  set sc := scK known u with hsc
  set sc2 : StorageContent :=
    { sc with files := upsertA fid (.Files path []) sc.files,
              file_sizes := upsertA size none sc.file_sizes } with hsc2
  have hKu : scK (upsertA u sc2 known) u = sc2 := scK_upsert_self known u sc2
  have hKv : ∀ v, v ≠ u → scK (upsertA u sc2 known) v = scK known v :=
    fun v hv => scK_upsert_ne known u v sc2 (Ne.symm hv)
  have hfilesback : ∀ g e, g ≠ fid → lookupA g sc.files = some e →
      lookupA g sc2.files = some e := by
    intro g e hg hge
    show lookupA g (upsertA fid (.Files path []) sc.files) = some e
    rw [lookupA_upsertA_ne _ _ (Ne.symm hg)]
    exact hge
  have hnotfid : ∀ e, lookupA fid sc.files = some e → False := by
    intro e he
    rw [hfresh] at he
    exact absurd he (by simp)
  have hfirstne : first ≠ fid := fun hc => hnotfid _ (hc ▸ hfirst)
  refine ⟨fun v => ?_, fun v => ?_, fun t ht => ?_, ?_, fun v => ?_⟩
  · by_cases hv : v = u
    · subst hv
      rw [hKu]
      intro sz dg f hh
      obtain ⟨q, hq⟩ := h1 v sz dg f hh
      exact ⟨q, hfilesback f _ (fun hc => hnotfid _ (hc ▸ hq)) hq⟩
    · rw [hKv v hv]
      exact h1 v
  · by_cases hv : v = u
    · subst hv
      rw [hKu]
      intro f t hlink
      rcases lookupA_upsertA_cases hlink with ⟨hfe, habs⟩ | ⟨hne, holdl⟩
      · exact absurd habs (by simp)
      · obtain ⟨hne2, q, hq⟩ := h2 v f t holdl
        exact ⟨hne2, q, hfilesback t _ (fun hc => hnotfid _ (hc ▸ hq)) hq⟩
    · rw [hKv v hv]
      exact h2 v
  · rcases List.mem_append.mp ht with hto | htn
    · by_cases hv : t.storage_uid = u
      · rw [hv, hKu]
        obtain ⟨q, qls, hq⟩ := h3 t hto
        rw [hv] at hq
        exact ⟨q, qls, hfilesback t.file_id _ (fun hc => hnotfid _ (hc ▸ hq)) hq⟩
      · rw [hKv _ hv]
        exact h3 t hto
    · rcases List.mem_cons.mp htn with rfl | htn2
      · rw [hKu]
        exact ⟨fp, fls, hfilesback first _ hfirstne hfirst⟩
      · rcases List.mem_singleton.mp htn2 with rfl
        rw [hKu]
        exact ⟨path, [], lookupA_upsertA_self fid _ sc.files⟩
  · unfold PendDistinct
    rw [List.pairwise_append]
    refine ⟨h4, ?_, ?_⟩
    · constructor
      · intro b hb
        rcases List.mem_singleton.mp hb with rfl
        intro hc
        exact hfirstne hc.2
      · simp [PendDistinct]
    · intro a ha b hb
      rcases List.mem_cons.mp hb with rfl | hb2
      · exact hnp_first a ha
      · rcases List.mem_singleton.mp hb2 with rfl
        intro hc
        obtain ⟨q, qls, hq⟩ := h3 a ha
        rw [hc.1] at hq
        rw [hc.2] at hq
        exact hnotfid _ hq
  · by_cases hv : v = u
    · subst hv
      intro sz f hsz
      rw [hKu] at hsz
      rcases lookupA_upsertA_cases hsz with ⟨hse, habs⟩ | ⟨hne, holdb⟩
      · exact absurd habs (by simp)
      · obtain ⟨⟨q, qls, hq⟩, hnp, huniq⟩ := h5 v sz f holdb
        have hnef : f ≠ fid := fun hc => hnotfid _ (hc ▸ hq)
        have hnefirst : f ≠ first := by
          intro hc
          subst hc
          exact hne (huniq_first sz holdb)
        refine ⟨⟨q, qls, by rw [hKu]; exact hfilesback f _ hnef hq⟩, ?_, ?_⟩
        · intro t ht
          rcases List.mem_append.mp ht with hto | htn
          · exact hnp t hto
          · rcases List.mem_cons.mp htn with rfl | htn2
            · intro hc
              exact hnefirst hc.2.symm
            · rcases List.mem_singleton.mp htn2 with rfl
              intro hc
              exact hnef hc.2.symm
        · intro sz2 hsz2
          rw [hKu] at hsz2
          rcases lookupA_upsertA_cases hsz2 with ⟨hse2, habs2⟩ | ⟨_, holdb2⟩
          · exact absurd habs2 (by simp)
          · exact huniq sz2 holdb2
    · intro sz f hsz
      rw [hKv v hv] at hsz
      obtain ⟨ha, hb, hc⟩ := h5 v sz f hsz
      rw [hKv v hv]
      refine ⟨ha, ?_, hc⟩
      intro t ht
      rcases List.mem_append.mp ht with hto | htn
      · exact hb t hto
      · rcases List.mem_cons.mp htn with rfl | htn2
        · intro hcc
          exact hv hcc.1.symm
        · rcases List.mem_singleton.mp htn2 with rfl
          intro hcc
          exact hv hcc.1.symm

theorem invKP_hash_vacant (known : List (StorageUid × StorageContent))
    (pend : List HashTask) (i : Nat) (t : HashTask) (dig : HashDigest)
    (orig : String) (ls : List String) (hI : InvKP known pend)
    (hti : pend[i]? = some t)
    (hh : lookupA (t.size, dig) (scK known t.storage_uid).hashes = none)
    (hf : lookupA t.file_id (scK known t.storage_uid).files
        = some (.Files orig ls)) :
    InvKP (upsertA t.storage_uid
      { scK known t.storage_uid with
          hashes := upsertA (t.size, dig) t.file_id
            (scK known t.storage_uid).hashes,
          files := upsertA t.file_id (.OriginalFile orig)
            (scK known t.storage_uid).files } known)
      (pend.eraseIdx i) := by
  obtain ⟨h1, h2, h3, h4, h5⟩ := hI
  have htmem : t ∈ pend := List.getElem?_mem hti
  have herased : ∀ t2 ∈ pend.eraseIdx i, taskKeyNe t t2 :=
    getElem?_eraseIdx_rel taskKeyNe taskKeyNe_symm pend i t hti h4
  set u := t.storage_uid with hu
  set sc := scK known u with hsc
  set sc2 : StorageContent :=
    { sc with hashes := upsertA (t.size, dig) t.file_id sc.hashes,
              files := upsertA t.file_id (.OriginalFile orig) sc.files }
    with hsc2
  have hKu : scK (upsertA u sc2 known) u = sc2 := scK_upsert_self known u sc2
  have hKv : ∀ v, v ≠ u → scK (upsertA u sc2 known) v = scK known v :=
    fun v hv => scK_upsert_ne known u v sc2 (Ne.symm hv)
  have hfilesback : ∀ g e, g ≠ t.file_id → lookupA g sc.files = some e →
      lookupA g sc2.files = some e := by
    intro g e hg hge
    show lookupA g (upsertA t.file_id (.OriginalFile orig) sc.files) = some e
    rw [lookupA_upsertA_ne _ _ (Ne.symm hg)]
    exact hge
  have hnotfiles : ∀ g q, lookupA g sc.files = some (.OriginalFile q) →
      g ≠ t.file_id := by
    intro g q hg hc
    rw [hc, hf] at hg
    exact absurd hg (by simp)
  refine ⟨fun v => ?_, fun v => ?_, fun t2 ht2 => ?_,
    pairwise_eraseIdx pend i h4, fun v => ?_⟩
  · by_cases hv : v = u
    · subst hv
      rw [hKu]
      intro sz dg f hhl
      rcases lookupA_upsertA_cases hhl with ⟨hke, hfe⟩ | ⟨hne, holdh⟩
      · subst hfe
        exact ⟨orig, lookupA_upsertA_self t.file_id _ sc.files⟩
      · obtain ⟨q, hq⟩ := h1 u sz dg f holdh
        exact ⟨q, hfilesback f _ (hnotfiles f q hq) hq⟩
    · rw [hKv v hv]
      exact h1 v
  · by_cases hv : v = u
    · subst hv
      rw [hKu]
      intro f tt hlink
      rcases lookupA_upsertA_cases hlink with ⟨hfe, habs⟩ | ⟨hne, holdl⟩
      · exact absurd habs (by simp)
      · obtain ⟨hne2, q, hq⟩ := h2 u f tt holdl
        exact ⟨hne2, q, hfilesback tt _ (hnotfiles tt q hq) hq⟩
    · rw [hKv v hv]
      exact h2 v
  · have ht2p : t2 ∈ pend := (List.eraseIdx_sublist pend i).subset ht2
    by_cases hv : t2.storage_uid = u
    · rw [hv, hKu]
      obtain ⟨q, qls, hq⟩ := h3 t2 ht2p
      rw [hv] at hq
      have hne : t2.file_id ≠ t.file_id := by
        intro hc
        exact herased t2 ht2 ⟨hv.symm, hc.symm⟩
      exact ⟨q, qls, hfilesback t2.file_id _ hne hq⟩
    · rw [hKv _ hv]
      exact h3 t2 ht2p
  · by_cases hv : v = u
    · subst hv
      intro sz f hsz
      rw [hKu] at hsz
      obtain ⟨⟨q, qls, hq⟩, hnp, huniq⟩ := h5 u sz f hsz
      have hnef : f ≠ t.file_id := by
        intro hc
        exact hnp t htmem ⟨rfl, hc.symm⟩
      refine ⟨⟨q, qls, by rw [hKu]; exact hfilesback f _ hnef hq⟩, ?_, ?_⟩
      · intro t2 ht2
        exact hnp t2 ((List.eraseIdx_sublist pend i).subset ht2)
      · intro sz2 hsz2
        rw [hKu] at hsz2
        exact huniq sz2 hsz2
    · intro sz f hsz
      rw [hKv v hv] at hsz
      obtain ⟨ha, hb, hc⟩ := h5 v sz f hsz
      rw [hKv v hv]
      exact ⟨ha, fun t2 ht2 => hb t2 ((List.eraseIdx_sublist pend i).subset ht2),
        hc⟩

theorem invKP_hash_occupied (known : List (StorageUid × StorageContent))
    (pend : List HashTask) (i : Nat) (t : HashTask) (dig : HashDigest)
    (orig_id : FileId) (new_file : String) (new_links : List String)
    (hI : InvKP known pend) (hti : pend[i]? = some t)
    (hh : lookupA (t.size, dig) (scK known t.storage_uid).hashes
        = some orig_id)
    (hf : lookupA t.file_id (scK known t.storage_uid).files
        = some (.Files new_file new_links)) :
    InvKP (upsertA t.storage_uid
      { scK known t.storage_uid with
          files := upsertA t.file_id (.LinkTo orig_id)
            (scK known t.storage_uid).files } known)
      (pend.eraseIdx i) := by
  obtain ⟨h1, h2, h3, h4, h5⟩ := hI
  have htmem : t ∈ pend := List.getElem?_mem hti
  have herased : ∀ t2 ∈ pend.eraseIdx i, taskKeyNe t t2 :=
    getElem?_eraseIdx_rel taskKeyNe taskKeyNe_symm pend i t hti h4
  set u := t.storage_uid with hu
  set sc := scK known u with hsc
  obtain ⟨op, hop⟩ := h1 u t.size dig orig_id hh
  have horigne : orig_id ≠ t.file_id := by
    intro hc
    rw [hc, hf] at hop
    exact absurd hop (by simp)
  set sc2 : StorageContent :=
    { sc with files := upsertA t.file_id (.LinkTo orig_id) sc.files } with hsc2
  have hKu : scK (upsertA u sc2 known) u = sc2 := scK_upsert_self known u sc2
  have hKv : ∀ v, v ≠ u → scK (upsertA u sc2 known) v = scK known v :=
    fun v hv => scK_upsert_ne known u v sc2 (Ne.symm hv)
  have hfilesback : ∀ g e, g ≠ t.file_id → lookupA g sc.files = some e →
      lookupA g sc2.files = some e := by
    intro g e hg hge
    show lookupA g (upsertA t.file_id (.LinkTo orig_id) sc.files) = some e
    rw [lookupA_upsertA_ne _ _ (Ne.symm hg)]
    exact hge
  have hnotfiles : ∀ g q, lookupA g sc.files = some (.OriginalFile q) →
      g ≠ t.file_id := by
    intro g q hg hc
    rw [hc, hf] at hg
    exact absurd hg (by simp)
  refine ⟨fun v => ?_, fun v => ?_, fun t2 ht2 => ?_,
    pairwise_eraseIdx pend i h4, fun v => ?_⟩
  · by_cases hv : v = u
    · subst hv
      rw [hKu]
      intro sz dg2 f hhl
      obtain ⟨q, hq⟩ := h1 u sz dg2 f hhl
      exact ⟨q, hfilesback f _ (hnotfiles f q hq) hq⟩
    · rw [hKv v hv]
      exact h1 v
  · by_cases hv : v = u
    · subst hv
      rw [hKu]
      intro f tt hlink
      rcases lookupA_upsertA_cases hlink with ⟨hfe, hval⟩ | ⟨hne, holdl⟩
      · injection hval with hval2
        subst hfe
        subst hval2
        exact ⟨horigne, op, hfilesback tt _ horigne hop⟩
      · obtain ⟨hne2, q, hq⟩ := h2 u f tt holdl
        exact ⟨hne2, q, hfilesback tt _ (hnotfiles tt q hq) hq⟩
    · rw [hKv v hv]
      exact h2 v
  · have ht2p : t2 ∈ pend := (List.eraseIdx_sublist pend i).subset ht2
    by_cases hv : t2.storage_uid = u
    · rw [hv, hKu]
      obtain ⟨q, qls, hq⟩ := h3 t2 ht2p
      rw [hv] at hq
      have hne : t2.file_id ≠ t.file_id := by
        intro hc
        exact herased t2 ht2 ⟨hv.symm, hc.symm⟩
      exact ⟨q, qls, hfilesback t2.file_id _ hne hq⟩
    · rw [hKv _ hv]
      exact h3 t2 ht2p
  · by_cases hv : v = u
    · subst hv
      intro sz f hsz
      rw [hKu] at hsz
      obtain ⟨⟨q, qls, hq⟩, hnp, huniq⟩ := h5 u sz f hsz
      have hnef : f ≠ t.file_id := by
        intro hc
        exact hnp t htmem ⟨rfl, hc.symm⟩
      refine ⟨⟨q, qls, by rw [hKu]; exact hfilesback f _ hnef hq⟩, ?_, ?_⟩
      · intro t2 ht2
        exact hnp t2 ((List.eraseIdx_sublist pend i).subset ht2)
      · intro sz2 hsz2
        rw [hKu] at hsz2
        exact huniq sz2 hsz2
    · intro sz f hsz
      rw [hKv v hv] at hsz
      obtain ⟨ha, hb, hc⟩ := h5 v sz f hsz
      rw [hKv v hv]
      exact ⟨ha, fun t2 ht2 => hb t2 ((List.eraseIdx_sublist pend i).subset ht2),
        hc⟩

theorem inv_step (d : StorageUid → FileId → Option HashDigest) (s : RunState)
    (c : Choice) (hInv : Inv s) : Inv (step d s c) := by
  obtain ⟨hfail, hKP⟩ := hInv
  unfold step
  rw [if_neg (by simp [hfail])]
  cases c with
  | file i =>
    rcases hpf : s.pendingFiles[i]? with _ | r
    · simp only [hpf]
      exact ⟨hfail, hKP⟩
    · simp only [hpf]
      rcases hocc : lookupA r.file_id (scK s.known r.storage_uid).files with _ | e
      · rcases hbucket : lookupA r.size (scK s.known r.storage_uid).file_sizes
          with _ | ofid
        · rw [processFileRec_vacant_nobucket r (scOf s r.storage_uid) hocc
            hbucket]
          refine ⟨rfl, ?_⟩
          simp only [List.append_nil]
          exact invKP_vacant_nobucket s.known s.pendingHashes r.storage_uid
            r.file_id r.path r.size hKP hocc hbucket
        · rcases ofid with _ | first
          · rw [processFileRec_vacant_sentinel r (scOf s r.storage_uid) hocc
              hbucket]
            refine ⟨rfl, ?_⟩
            exact invKP_vacant_sentinel s.known s.pendingHashes r.storage_uid
              r.file_id r.path r.size hKP hocc
          · obtain ⟨⟨fp, fls, hfirst⟩, _, _⟩ :=
              hKP.2.2.2.2 r.storage_uid r.size first hbucket
            rw [processFileRec_vacant_sole r (scOf s r.storage_uid) first fp
              fls hocc hbucket hfirst]
            refine ⟨rfl, ?_⟩
            exact invKP_vacant_sole s.known s.pendingHashes r.storage_uid
              r.file_id r.path r.size first fp fls hKP hocc hbucket hfirst
      · rcases e with p | ⟨p, ls⟩ | tfid
        · rw [processFileRec_original r (scOf s r.storage_uid) p hocc]
          refine ⟨rfl, ?_⟩
          simp only [List.append_nil]
          exact invKP_upsert_same s.known s.pendingHashes r.storage_uid hKP
        · rw [processFileRec_files r (scOf s r.storage_uid) p ls hocc]
          refine ⟨rfl, ?_⟩
          simp only [List.append_nil]
          exact invKP_files_update s.known s.pendingHashes r.storage_uid
            r.file_id p ls p (insertIfAbsent r.path ls) hKP hocc
        · obtain ⟨hne, p2, hp2⟩ := hKP.2.1 r.storage_uid r.file_id tfid hocc
          rw [processFileRec_linkTo r (scOf s r.storage_uid) tfid p2 hocc hne
            hp2]
          refine ⟨rfl, ?_⟩
          simp only [List.append_nil]
          exact invKP_upsert_same s.known s.pendingHashes r.storage_uid hKP
  | hash i =>
    rcases hph : s.pendingHashes[i]? with _ | t
    · simp only [hph]
      exact ⟨hfail, hKP⟩
    · simp only [hph]
      have htmem : t ∈ s.pendingHashes := List.getElem?_mem hph
      obtain ⟨p0, ls0, hf0⟩ := hKP.2.2.1 t htmem
      rcases hd : d t.storage_uid t.file_id with _ | dig
      · exact ⟨hfail, invKP_erase s.known s.pendingHashes i hKP⟩
      · rcases hsk : lookupA t.storage_uid s.known with _ | sc
        · exfalso
          unfold scK at hf0
          rw [hsk] at hf0
          simp [emptyStorage, lookupA] at hf0
        · have hscEq : sc = scK s.known t.storage_uid := by
            unfold scK
            rw [hsk]
            rfl
          show Inv
            { s with
                known := upsertA t.storage_uid
                  (processHashRec t.file_id t.size dig sc).1 s.known,
                wasted := s.wasted + (processHashRec t.file_id t.size dig sc).2.1,
                pendingHashes := s.pendingHashes.eraseIdx i,
                merges := s.merges ++ (processHashRec t.file_id t.size dig sc).2.2.1,
                failed := (processHashRec t.file_id t.size dig sc).2.2.2 }
          rcases hh : lookupA (t.size, dig) sc.hashes with _ | orig_id
          · rw [processHashRec_vacant t.file_id t.size dig sc p0 ls0 hh
              (by rw [hscEq]; exact hf0)]
            refine ⟨rfl, ?_⟩
            rw [hscEq]
            exact invKP_hash_vacant s.known s.pendingHashes i t dig p0 ls0
              hKP hph (by rw [← hscEq]; exact hh) hf0
          · have hhK : lookupA (t.size, dig)
                (scK s.known t.storage_uid).hashes = some orig_id := by
              rw [← hscEq]; exact hh
            obtain ⟨op, hop⟩ := hKP.1 t.storage_uid t.size dig orig_id hhK
            have horigne : orig_id ≠ t.file_id := by
              intro hc
              rw [hc, hf0] at hop
              exact absurd hop (by simp)
            have hlook2 : lookupA orig_id
                (upsertA t.file_id (.LinkTo orig_id) sc.files)
                = some (.OriginalFile op) := by
              rw [lookupA_upsertA_ne _ _ (Ne.symm horigne), hscEq]
              exact hop
            rw [processHashRec_occupied t.file_id t.size dig sc orig_id p0
              ls0 op hh (by rw [hscEq]; exact hf0) hlook2]
            refine ⟨rfl, ?_⟩
            rw [hscEq]
            exact invKP_hash_occupied s.known s.pendingHashes i t dig orig_id
              p0 ls0 hKP hph hhK hf0

theorem inv_initState (input : List FileRec) : Inv (initState input) := by
  refine ⟨rfl, fun u => ?_, fun u => ?_, fun t ht => ?_, ?_, fun u sz f hsz => ?_⟩
  · intro sz dg f hh
    simp [initState, scK, lookupA, emptyStorage] at hh
  · intro f t hl
    simp [initState, scK, lookupA, emptyStorage] at hl
  · simp [initState] at ht
  · simp [initState, PendDistinct]
  · simp [initState, scK, lookupA, emptyStorage] at hsz

theorem inv_run (d : StorageUid → FileId → Option HashDigest)
    (input : List FileRec) (cs : List Choice) : Inv (run d input cs) := by
  unfold run
  induction cs using List.reverseRecOn with
  | nil => exact inv_initState input
  | append_singleton cs c ih =>
    rw [List.foldl_append]
    exact inv_step d _ c ih

/-! ### Claim C10 -/

/-- Claim C10: in every reachable coordinator state, no
`unreachable`/`expect` branch has been reached, and every `LinkTo` row
points at a different key whose row is `OriginalFile` — alias chains have
length exactly one and end at a representative. -/
theorem C10_alias_invariant (d : StorageUid → FileId → Option HashDigest)
    (input : List FileRec) (cs : List Choice) :
    (run d input cs).failed = none
    ∧ ∀ u f t,
        lookupA f (scK (run d input cs).known u).files = some (.LinkTo t) →
        t ≠ f ∧ ∃ p, lookupA t (scK (run d input cs).known u).files
          = some (.OriginalFile p) := by
  obtain ⟨hfail, h1, h2, h3, h4, h5⟩ := inv_run d input cs
  exact ⟨hfail, fun u f t hl => h2 u f t hl⟩

/-- Witness for C10: the run that links extent 2 to representative 1
finishes unfailed, and its `LinkTo 1` row indeed points at an
`OriginalFile` row. -/
theorem C10_alias_invariant_witness :
    (run (fun _ _ => some 42) [⟨"p1", 5, 0, 1⟩, ⟨"p2", 5, 0, 2⟩]
      [.file 0, .file 0, .hash 0, .hash 0]).failed = none
    ∧ ((1 : FileId) ≠ 2
        ∧ ∃ p, lookupA 1 (scK (run (fun _ _ => some 42)
            [⟨"p1", 5, 0, 1⟩, ⟨"p2", 5, 0, 2⟩]
            [.file 0, .file 0, .hash 0, .hash 0]).known 0).files
          = some (.OriginalFile p)) :=
  ⟨(C10_alias_invariant (fun _ _ => some 42)
      [⟨"p1", 5, 0, 1⟩, ⟨"p2", 5, 0, 2⟩]
      [.file 0, .file 0, .hash 0, .hash 0]).1,
   (C10_alias_invariant (fun _ _ => some 42)
      [⟨"p1", 5, 0, 1⟩, ⟨"p2", 5, 0, 2⟩]
      [.file 0, .file 0, .hash 0, .hash 0]).2 0 2 1 (by decide)⟩

/-! ### Second-run invariant preservation -/

theorem noLinks_congr (known known' : List (StorageUid × StorageContent))
    (h : ∀ v, scK known' v = scK known v) (hNL : NoLinks known) :
    NoLinks known' := by
  intro u f t
  rw [h u]
  exact hNL u f t

theorem scK_upsert_same_pointwise (known : List (StorageUid × StorageContent))
    (u : StorageUid) :
    ∀ v, scK (upsertA u (scK known u) known) v = scK known v := by
  intro v
  by_cases hv : u = v
  · subst hv
    exact scK_upsert_self known u _
  · exact scK_upsert_ne known u v _ hv

theorem noLinks_upsert_files (known : List (StorageUid × StorageContent))
    (u : StorageUid) (fid : FileId) (e : FileEntry) (sc2 : StorageContent)
    (hsc2f : sc2.files = upsertA fid e (scK known u).files)
    (he : ∀ tt, e ≠ .LinkTo tt) (hNL : NoLinks known) :
    NoLinks (upsertA u sc2 known) := by
  intro v f tt hl
  by_cases hv : v = u
  · rw [hv, scK_upsert_self, hsc2f] at hl
    rcases lookupA_upsertA_cases hl with ⟨_, hval⟩ | ⟨_, holdl⟩
    · exact he tt hval.symm
    · exact hNL u f tt holdl
  · rw [scK_upsert_ne known u v sc2 (Ne.symm hv)] at hl
    exact hNL v f tt hl

theorem dedupSizes_update (d : StorageUid → FileId → Option HashDigest)
    (sizeOf : StorageUid → FileId → Filesize)
    (known : List (StorageUid × StorageContent)) (pendF' : List FileRec)
    (pend' : List HashTask) (u : StorageUid) (sc2 : StorageContent)
    (hfs : ∀ sz f, lookupA sz sc2.file_sizes = some (some f) →
      sz = sizeOf u f)
    (hhs : ∀ sz dg f, lookupA (sz, dg) sc2.hashes = some f →
      sz = sizeOf u f ∧ d u f = some dg)
    (hDB : ∀ v sz f, lookupA sz (scK known v).file_sizes = some (some f) →
      sz = sizeOf v f)
    (hDH : ∀ v sz dg f, lookupA (sz, dg) (scK known v).hashes = some f →
      sz = sizeOf v f ∧ d v f = some dg)
    (hF' : ∀ r ∈ pendF', r.size = sizeOf r.storage_uid r.file_id)
    (hT' : ∀ t ∈ pend', t.size = sizeOf t.storage_uid t.file_id) :
    DedupSizes d sizeOf (upsertA u sc2 known) pendF' pend' := by
  refine ⟨hF', hT', fun v sz f hsz => ?_, fun v sz dg f hh => ?_⟩
  · by_cases hv : v = u
    · subst hv
      rw [scK_upsert_self] at hsz
      exact hfs sz f hsz
    · rw [scK_upsert_ne known u v sc2 (fun hc => hv hc.symm)] at hsz
      exact hDB v sz f hsz
  · by_cases hv : v = u
    · subst hv
      rw [scK_upsert_self] at hh
      exact hhs sz dg f hh
    · rw [scK_upsert_ne known u v sc2 (fun hc => hv hc.symm)] at hh
      exact hDH v sz dg f hh

theorem extra_step (d : StorageUid → FileId → Option HashDigest)
    (sizeOf : StorageUid → FileId → Filesize)
    (hinj : ∀ u f g dg, d u f = some dg → d u g = some dg →
      sizeOf u f = sizeOf u g → f = g)
    (s : RunState) (c : Choice) (hInv : Inv s)
    (hX : SecondRunExtra d sizeOf s) :
    SecondRunExtra d sizeOf (step d s c) := by
  obtain ⟨hfail, hKP⟩ := hInv
  obtain ⟨hNL, ⟨hDF, hDT, hDB, hDH⟩, hW, hM⟩ := hX
  unfold step
  rw [if_neg (by simp [hfail])]
  cases c with
  | file i =>
    rcases hpf : s.pendingFiles[i]? with _ | r
    · simp only [hpf]
      exact ⟨hNL, ⟨hDF, hDT, hDB, hDH⟩, hW, hM⟩
    · simp only [hpf]
      have hrmem : r ∈ s.pendingFiles := List.getElem?_mem hpf
      have hrsize : r.size = sizeOf r.storage_uid r.file_id := hDF r hrmem
      have hDF' : ∀ r2 ∈ s.pendingFiles.eraseIdx i,
          r2.size = sizeOf r2.storage_uid r2.file_id :=
        fun r2 h2 => hDF r2 ((List.eraseIdx_sublist _ i).subset h2)
      rcases hocc : lookupA r.file_id (scK s.known r.storage_uid).files
        with _ | e
      · rcases hbucket : lookupA r.size (scK s.known r.storage_uid).file_sizes
          with _ | ofid
        · rw [processFileRec_vacant_nobucket r (scOf s r.storage_uid) hocc
            hbucket]
          refine ⟨?_, ?_, hW, by simp [hM]⟩
          · exact noLinks_upsert_files s.known r.storage_uid r.file_id
              (.Files r.path []) _ rfl (by intro tt hc; cases hc) hNL
          · refine dedupSizes_update d sizeOf s.known _ _ r.storage_uid
              { scK s.known r.storage_uid with
                  files := upsertA r.file_id (.Files r.path [])
                    (scK s.known r.storage_uid).files,
                  file_sizes := upsertA r.size (some r.file_id)
                    (scK s.known r.storage_uid).file_sizes }
              ?_ ?_ hDB hDH hDF' ?_
            · intro sz f hsz
              rcases lookupA_upsertA_cases hsz with ⟨hke, hval⟩ | ⟨_, holdb⟩
              · injection hval with hval2
                subst hke
                subst hval2
                exact hrsize
              · exact hDB r.storage_uid sz f holdb
            · intro sz dg f hh
              exact hDH r.storage_uid sz dg f hh
            · intro t2 ht2
              rcases List.mem_append.mp ht2 with hto | htn
              · exact hDT t2 hto
              · cases htn
        · rcases ofid with _ | first
          · rw [processFileRec_vacant_sentinel r (scOf s r.storage_uid) hocc
              hbucket]
            refine ⟨?_, ?_, hW, by simp [hM]⟩
            · exact noLinks_upsert_files s.known r.storage_uid r.file_id
                (.Files r.path []) _ rfl (by intro tt hc; cases hc) hNL
            · refine dedupSizes_update d sizeOf s.known _ _ r.storage_uid
                { scK s.known r.storage_uid with
                    files := upsertA r.file_id (.Files r.path [])
                      (scK s.known r.storage_uid).files }
                ?_ ?_ hDB hDH hDF' ?_
              · intro sz f hsz
                exact hDB r.storage_uid sz f hsz
              · intro sz dg f hh
                exact hDH r.storage_uid sz dg f hh
              · intro t2 ht2
                rcases List.mem_append.mp ht2 with hto | htn
                · exact hDT t2 hto
                · rcases List.mem_singleton.mp htn with rfl
                  exact hrsize
          · obtain ⟨⟨fp, fls, hfirst⟩, _, _⟩ :=
              hKP.2.2.2.2 r.storage_uid r.size first hbucket
            have hfirstsize : r.size = sizeOf r.storage_uid first :=
              hDB r.storage_uid r.size first hbucket
            rw [processFileRec_vacant_sole r (scOf s r.storage_uid) first fp
              fls hocc hbucket hfirst]
            refine ⟨?_, ?_, hW, by simp [hM]⟩
            · exact noLinks_upsert_files s.known r.storage_uid r.file_id
                (.Files r.path []) _ rfl (by intro tt hc; cases hc) hNL
            · refine dedupSizes_update d sizeOf s.known _ _ r.storage_uid
                { scK s.known r.storage_uid with
                    files := upsertA r.file_id (.Files r.path [])
                      (scK s.known r.storage_uid).files,
                    file_sizes := upsertA r.size none
                      (scK s.known r.storage_uid).file_sizes }
                ?_ ?_ hDB hDH hDF' ?_
              · intro sz f hsz
                rcases lookupA_upsertA_cases hsz with ⟨_, hval⟩ | ⟨_, holdb⟩
                · exact absurd hval (by simp)
                · exact hDB r.storage_uid sz f holdb
              · intro sz dg f hh
                exact hDH r.storage_uid sz dg f hh
              · intro t2 ht2
                rcases List.mem_append.mp ht2 with hto | htn
                · exact hDT t2 hto
                · rcases List.mem_cons.mp htn with rfl | htn2
                  · exact hfirstsize
                  · rcases List.mem_singleton.mp htn2 with rfl
                    exact hrsize
      · rcases e with p | ⟨p, ls⟩ | tfid
        · rw [processFileRec_original r (scOf s r.storage_uid) p hocc]
          refine ⟨?_, ?_, hW, by simp [hM]⟩
          · exact noLinks_congr s.known _
              (scK_upsert_same_pointwise s.known r.storage_uid) hNL
          · refine dedupSizes_update d sizeOf s.known _ _ r.storage_uid
              (scK s.known r.storage_uid) ?_ ?_ hDB hDH hDF' ?_
            · intro sz f hsz
              exact hDB r.storage_uid sz f hsz
            · intro sz dg f hh
              exact hDH r.storage_uid sz dg f hh
            · intro t2 ht2
              rcases List.mem_append.mp ht2 with hto | htn
              · exact hDT t2 hto
              · cases htn
        · rw [processFileRec_files r (scOf s r.storage_uid) p ls hocc]
          refine ⟨?_, ?_, hW, by simp [hM]⟩
          · exact noLinks_upsert_files s.known r.storage_uid r.file_id
              (.Files p (insertIfAbsent r.path ls)) _ rfl
              (by intro tt hc; cases hc) hNL
          · refine dedupSizes_update d sizeOf s.known _ _ r.storage_uid
              { scK s.known r.storage_uid with
                  files := upsertA r.file_id
                    (.Files p (insertIfAbsent r.path ls))
                    (scK s.known r.storage_uid).files }
              ?_ ?_ hDB hDH hDF' ?_
            · intro sz f hsz
              exact hDB r.storage_uid sz f hsz
            · intro sz dg f hh
              exact hDH r.storage_uid sz dg f hh
            · intro t2 ht2
              rcases List.mem_append.mp ht2 with hto | htn
              · exact hDT t2 hto
              · cases htn
        · exact absurd hocc (hNL r.storage_uid r.file_id tfid)
  | hash i =>
    rcases hph : s.pendingHashes[i]? with _ | t
    · simp only [hph]
      exact ⟨hNL, ⟨hDF, hDT, hDB, hDH⟩, hW, hM⟩
    · simp only [hph]
      have htmem : t ∈ s.pendingHashes := List.getElem?_mem hph
      obtain ⟨p0, ls0, hf0⟩ := hKP.2.2.1 t htmem
      have hDT' : ∀ t2 ∈ s.pendingHashes.eraseIdx i,
          t2.size = sizeOf t2.storage_uid t2.file_id :=
        fun t2 h2 => hDT t2 ((List.eraseIdx_sublist _ i).subset h2)
      rcases hd : d t.storage_uid t.file_id with _ | dig
      · exact ⟨hNL, ⟨hDF, hDT', hDB, hDH⟩, hW, hM⟩
      · rcases hsk : lookupA t.storage_uid s.known with _ | sc
        · exfalso
          unfold scK at hf0
          rw [hsk] at hf0
          simp [emptyStorage, lookupA] at hf0
        · have hscEq : sc = scK s.known t.storage_uid := by
            unfold scK
            rw [hsk]
            rfl
          subst hscEq
          show SecondRunExtra d sizeOf
            { s with
                known := upsertA t.storage_uid
                  (processHashRec t.file_id t.size dig
                    (scK s.known t.storage_uid)).1 s.known,
                wasted := s.wasted + (processHashRec t.file_id t.size dig
                  (scK s.known t.storage_uid)).2.1,
                pendingHashes := s.pendingHashes.eraseIdx i,
                merges := s.merges ++ (processHashRec t.file_id t.size dig
                  (scK s.known t.storage_uid)).2.2.1,
                failed := (processHashRec t.file_id t.size dig
                  (scK s.known t.storage_uid)).2.2.2 }
          rcases hh : lookupA (t.size, dig) (scK s.known t.storage_uid).hashes
            with _ | orig_id
          · rw [processHashRec_vacant t.file_id t.size dig
              (scK s.known t.storage_uid) p0 ls0 hh hf0]
            refine ⟨?_, ?_, by simp [hW], by simp [hM]⟩
            · exact noLinks_upsert_files s.known t.storage_uid t.file_id
                (.OriginalFile p0) _ rfl (by intro tt hc; cases hc) hNL
            · refine dedupSizes_update d sizeOf s.known _ _ t.storage_uid
                { scK s.known t.storage_uid with
                    hashes := upsertA (t.size, dig) t.file_id
                      (scK s.known t.storage_uid).hashes,
                    files := upsertA t.file_id (.OriginalFile p0)
                      (scK s.known t.storage_uid).files }
                ?_ ?_ hDB hDH hDF hDT'
              · intro sz f hsz
                exact hDB t.storage_uid sz f hsz
              · intro sz dg2 f hh2
                rcases lookupA_upsertA_cases hh2 with ⟨hke, hval⟩ | ⟨_, holdh⟩
                · injection hke with hke1 hke2
                  subst hval
                  subst hke1
                  subst hke2
                  exact ⟨hDT t htmem, hd⟩
                · exact hDH t.storage_uid sz dg2 f holdh
          · exfalso
            obtain ⟨hsz1, hd1⟩ := hDH t.storage_uid t.size dig orig_id hh
            have hsz2 : t.size = sizeOf t.storage_uid t.file_id := hDT t htmem
            have heq : orig_id = t.file_id :=
              hinj t.storage_uid orig_id t.file_id dig hd1 hd
                (by rw [← hsz1, ← hsz2])
            obtain ⟨op, hop⟩ := hKP.1 t.storage_uid t.size dig orig_id hh
            rw [heq, hf0] at hop
            exact absurd hop (by simp)

theorem extra_initState (d : StorageUid → FileId → Option HashDigest)
    (sizeOf : StorageUid → FileId → Filesize) (input : List FileRec)
    (hsize : ∀ r ∈ input, r.size = sizeOf r.storage_uid r.file_id) :
    SecondRunExtra d sizeOf (initState input) := by
  refine ⟨fun u f t hl => ?_, ⟨hsize, ?_, ?_, ?_⟩, rfl, rfl⟩
  · simp [initState, scK, lookupA, emptyStorage] at hl
  · intro t ht
    simp [initState] at ht
  · intro u sz f hsz
    simp [initState, scK, lookupA, emptyStorage] at hsz
  · intro u sz dg f hh
    simp [initState, scK, lookupA, emptyStorage] at hh

/-! ### Claim C9 -/

/-- Claim C9 counterexample: on a deduplicated tree holding two same-size
files with different content (distinct extents, distinct digests), the
second run still queues hashing — two hash tasks are spawned — refuting
the claim's "never queues hashing"; the run nevertheless performs zero
link-swaps and reports zero saved bytes. -/
theorem C9_counterexample :
    (run (fun _ f => some f) [⟨"a", 5, 0, 1⟩, ⟨"b", 5, 0, 2⟩]
      [.file 0, .file 0]).pendingHashes.length = 2
    ∧ (run (fun _ f => some f) [⟨"a", 5, 0, 1⟩, ⟨"b", 5, 0, 2⟩]
      [.file 0, .file 0, .hash 0, .hash 0]).wasted = 0
    ∧ (run (fun _ f => some f) [⟨"a", 5, 0, 1⟩, ⟨"b", 5, 0, 2⟩]
      [.file 0, .file 0, .hash 0, .hash 0]).merges = [] :=
  ⟨by decide, by decide, by decide⟩

/-- Claim C9 (amended): on any input tree already fully deduplicated —
every record's size is its extent's size and no two distinct extents of
one volume share both size and digest — every run (any scheduling) issues
zero link-swaps and reports zero saved bytes.  Hashing may still be queued
for same-size extents with different content, but each such hash lands in
a vacant hash bucket, so no linking occurs. -/
theorem C9_second_run (d : StorageUid → FileId → Option HashDigest)
    (sizeOf : StorageUid → FileId → Filesize) (input : List FileRec)
    (hsize : ∀ r ∈ input, r.size = sizeOf r.storage_uid r.file_id)
    (hinj : ∀ u f g dg, d u f = some dg → d u g = some dg →
      sizeOf u f = sizeOf u g → f = g)
    (cs : List Choice) :
    (run d input cs).wasted = 0 ∧ (run d input cs).merges = [] := by
  suffices h : Inv (run d input cs) ∧ SecondRunExtra d sizeOf (run d input cs) by
    exact ⟨h.2.2.2.1, h.2.2.2.2⟩
  unfold run
  induction cs using List.reverseRecOn with
  | nil => exact ⟨inv_initState input, extra_initState d sizeOf input hsize⟩
  | append_singleton cs c ih =>
    rw [List.foldl_append]
    exact ⟨inv_step d _ c ih.1,
      extra_step d sizeOf hinj _ c ih.1 ih.2⟩

/-- Witness for C9: the deduplicated two-file tree from the counterexample
run to completion reports zero saved bytes and performs no link-swaps. -/
theorem C9_second_run_witness :
    (run (fun _ f => some f) [⟨"a", 5, 0, 1⟩, ⟨"b", 5, 0, 2⟩]
      [.file 0, .file 0, .hash 0, .hash 0]).wasted = 0
    ∧ (run (fun _ f => some f) [⟨"a", 5, 0, 1⟩, ⟨"b", 5, 0, 2⟩]
      [.file 0, .file 0, .hash 0, .hash 0]).merges = [] :=
  C9_second_run (fun _ f => some f) (fun _ _ => 5)
    [⟨"a", 5, 0, 1⟩, ⟨"b", 5, 0, 2⟩] (by decide)
    (by
      intro u f g dg h1 h2 _
      have e1 : f = dg := by simpa using h1
      have e2 : g = dg := by simpa using h2
      rw [e1, e2])
    [.file 0, .file 0, .hash 0, .hash 0]

end HardLinkDedup
